import Mathlib

/-!
Verification of the pysme SDE-integration module (`src/pysme/sde.py`) and the
grid-convergence harness (`grid_conv.py`) against their natural-language
specification.  State vectors are embedded as `List ℝ`, numpy elementwise
arithmetic as `zipWith`/`map`, and each integrator's Python loop as an explicit
fold (`chain`) that records every intermediate state.
-/

namespace Pysme

/-! ## Vector arithmetic (numpy elementwise operations on equal-shape arrays) -/

/-- numpy elementwise addition of two equal-length vectors. -/
def vadd (a b : List ℝ) : List ℝ := List.zipWith (· + ·) a b

/-- numpy elementwise subtraction of two equal-length vectors. -/
def vsub (a b : List ℝ) : List ℝ := List.zipWith (· - ·) a b

/-- numpy `vector * scalar`. -/
def vscale (v : List ℝ) (c : ℝ) : List ℝ := v.map (· * c)

/-- numpy `vector / scalar`. -/
noncomputable def vdiv (v : List ℝ) (c : ℝ) : List ℝ := v.map (· / c)

/-! ## The trajectory-building loop

Every integrator in `sde.py` starts from a one-row array holding `X0` and
appends one new row per step (`np.vstack` / `list.append`), each computed from
the previous row and that step's data.  `chain` is that loop, returning the
whole list of intermediate states. -/

/-- Fold that records the initial state and every successive state. -/
def chain (f : α → β → α) : α → List β → List α
  | x, [] => [x]
  | x, b :: bs => x :: chain f (f x b) bs

/-- Truncating 3-way zip, as Python `zip`. -/
def zip3 (as : List α) (bs : List β) (cs : List γ) : List (α × β × γ) :=
  as.zip (bs.zip cs)

/-- Truncating 4-way zip, as Python `zip`. -/
def zip4 (as : List α) (bs : List β) (cs : List γ) (ds : List δ) :
    List (α × β × γ × δ) :=
  as.zip (bs.zip (cs.zip ds))

/-! ## `sde.py`: the six integrators -/

/-- One Euler step: `X + drift(X, t)*dt + diffusion(X, t)*dW`
(`sde.py` lines 59-61). -/
def euler_step (drift diffusion : List ℝ → ℝ → List ℝ)
    (X : List ℝ) : ℝ × ℝ × ℝ → List ℝ
  | (t, dt, dW) => vadd (vadd X (vscale (drift X t) dt)) (vscale (diffusion X t) dW)

/-- The per-step data `zip(ts[:-1], dts, dWs)` shared by `euler`, `milstein`
and `faulty_milstein`: `dts` are consecutive time differences and
`dWs = sqrt(dts)*Us` elementwise. -/
noncomputable def wiener_steps (ts Us : List ℝ) : List (ℝ × ℝ × ℝ) :=
  let dts := List.zipWith (fun tf ti => tf - ti) ts.tail ts.dropLast
  let sqrtdts := dts.map Real.sqrt
  let dWs := List.zipWith (· * ·) sqrtdts Us
  zip3 ts.dropLast dts dWs

/-- The per-step data `zip(ts[:-1], dts, dMs)` shared by `meas_euler` and
`meas_milstein`. -/
def meas_steps (ts dMs : List ℝ) : List (ℝ × ℝ × ℝ) :=
  let dts := List.zipWith (fun tf ti => tf - ti) ts.tail ts.dropLast
  zip3 ts.dropLast dts dMs

/-- `sde.py` `euler`: the trajectory is the recorded fold of `euler_step`. -/
noncomputable def euler (drift diffusion : List ℝ → ℝ → List ℝ)
    (X0 : List ℝ) (ts Us : List ℝ) : List (List ℝ) :=
  chain (euler_step drift diffusion) X0 (wiener_steps ts Us)

/-- One `meas_euler` step: the Wiener increment is produced by `dW_fn`
from the incremental measurement (`sde.py` lines 112-115). -/
def meas_euler_step (drift_fn diffusion_fn : List ℝ → ℝ → List ℝ)
    (dW_fn : ℝ → ℝ → List ℝ → ℝ → ℝ) (X : List ℝ) : ℝ × ℝ × ℝ → List ℝ
  | (t, dt, dM) =>
    let dW := dW_fn dM dt X t
    vadd (vadd X (vscale (drift_fn X t) dt)) (vscale (diffusion_fn X t) dW)

/-- `sde.py` `meas_euler`. -/
def meas_euler (drift_fn diffusion_fn : List ℝ → ℝ → List ℝ)
    (dW_fn : ℝ → ℝ → List ℝ → ℝ → ℝ) (X0 : List ℝ) (ts dMs : List ℝ) :
    List (List ℝ) :=
  chain (meas_euler_step drift_fn diffusion_fn dW_fn) X0 (meas_steps ts dMs)

/-- One Milstein step, adding `b_dx_b(X, t)*(dW**2 - dt)/2` to the Euler update
(`sde.py` lines 173-175). -/
noncomputable def milstein_step (drift diffusion b_dx_b : List ℝ → ℝ → List ℝ)
    (X : List ℝ) : ℝ × ℝ × ℝ → List ℝ
  | (t, dt, dW) =>
    vadd (vadd (vadd X (vscale (drift X t) dt)) (vscale (diffusion X t) dW))
      (vdiv (vscale (b_dx_b X t) (dW ^ 2 - dt)) 2)

/-- `sde.py` `milstein`. -/
noncomputable def milstein (drift diffusion b_dx_b : List ℝ → ℝ → List ℝ)
    (X0 : List ℝ) (ts Us : List ℝ) : List (List ℝ) :=
  chain (milstein_step drift diffusion b_dx_b) X0 (wiener_steps ts Us)

/-- One `meas_milstein` step (`sde.py` lines 232-236). -/
noncomputable def meas_milstein_step (drift_fn diffusion_fn b_dx_b_fn : List ℝ → ℝ → List ℝ)
    (dW_fn : ℝ → ℝ → List ℝ → ℝ → ℝ) (X : List ℝ) : ℝ × ℝ × ℝ → List ℝ
  | (t, dt, dM) =>
    let dW := dW_fn dM dt X t
    vadd (vadd (vadd X (vscale (drift_fn X t) dt)) (vscale (diffusion_fn X t) dW))
      (vdiv (vscale (b_dx_b_fn X t) (dW ^ 2 - dt)) 2)

/-- `sde.py` `meas_milstein`. -/
noncomputable def meas_milstein (drift_fn diffusion_fn b_dx_b_fn : List ℝ → ℝ → List ℝ)
    (dW_fn : ℝ → ℝ → List ℝ → ℝ → ℝ) (X0 : List ℝ) (ts dMs : List ℝ) :
    List (List ℝ) :=
  chain (meas_milstein_step drift_fn diffusion_fn b_dx_b_fn dW_fn) X0
    (meas_steps ts dMs)

/-- One faulty-Milstein step: the correction term `b_dx_b(X, t)*(dW**2 - dt)`
with the `1/2` factor missing (`sde.py` lines 388-390). -/
def faulty_milstein_step (drift diffusion b_dx_b : List ℝ → ℝ → List ℝ)
    (X : List ℝ) : ℝ × ℝ × ℝ → List ℝ
  | (t, dt, dW) =>
    vadd (vadd (vadd X (vscale (drift X t) dt)) (vscale (diffusion X t) dW))
      (vscale (b_dx_b X t) (dW ^ 2 - dt))

/-- `sde.py` `faulty_milstein`. -/
noncomputable def faulty_milstein (drift diffusion b_dx_b : List ℝ → ℝ → List ℝ)
    (X0 : List ℝ) (ts Us : List ℝ) : List (List ℝ) :=
  chain (faulty_milstein_step drift diffusion b_dx_b) X0 (wiener_steps ts Us)

/-- One order-1.5 Taylor step (`sde.py` lines 323-329), with the term order and
grouping of the source:
`X + drift(X)*dt + diffusion(X)*dW + b_dx_b(X)*(dW**2 - dt)/2 + b_dx_a(X)*dZ +
(a_dx_b(X)+b_b_dx_dx_b(X)/2)*(dW*dt - dZ) + (a_dx_a(X)+b_b_dx_dx_a(X)/2)*dt**2/2 +
b_dx_b_dx_b(X)*(dW**2/3 - dt)*dW/2`. -/
noncomputable def taylor_1_5_step
    (drift diffusion b_dx_b b_dx_a a_dx_b a_dx_a b_dx_b_dx_b b_b_dx_dx_b
      b_b_dx_dx_a : List ℝ → List ℝ) (X : List ℝ) : ℝ × ℝ × ℝ × ℝ → List ℝ
  | (_t, dt, dW, dZ) =>
    vadd (vadd (vadd (vadd (vadd (vadd (vadd X
      (vscale (drift X) dt))
      (vscale (diffusion X) dW))
      (vdiv (vscale (b_dx_b X) (dW ^ 2 - dt)) 2))
      (vscale (b_dx_a X) dZ))
      (vscale (vadd (a_dx_b X) (vdiv (b_b_dx_dx_b X) 2)) (dW * dt - dZ)))
      (vdiv (vscale (vadd (a_dx_a X) (vdiv (b_b_dx_dx_a X) 2)) (dt ^ 2)) 2))
      (vdiv (vscale (vscale (b_dx_b_dx_b X) (dW ^ 2 / 3 - dt)) dW) 2)

/-- The per-step data `zip(ts[:-1], dts, dWs, dZs)` of `time_ind_taylor_1_5`:
`dts = ts[1:] - ts[:-1]`, `dWs = U1s*sqrt(dts)` and
`dZs = (U1s + U2s/sqrt(3))*sqrt(dts)*dts/2`. -/
noncomputable def taylor_steps (ts U1s U2s : List ℝ) : List (ℝ × ℝ × ℝ × ℝ) :=
  let dts := List.zipWith (fun tf ti => tf - ti) ts.tail ts.dropLast
  let sqrtdts := dts.map Real.sqrt
  let dWs := List.zipWith (· * ·) U1s sqrtdts
  let dZs := (List.zipWith (· * ·)
    (List.zipWith (· * ·)
      (List.zipWith (· + ·) U1s (U2s.map (· / Real.sqrt 3))) sqrtdts) dts).map
    (· / 2)
  zip4 ts.dropLast dts dWs dZs

/-- `sde.py` `time_ind_taylor_1_5`: the recorded fold of `taylor_1_5_step`. -/
noncomputable def time_ind_taylor_1_5
    (drift diffusion b_dx_b b_dx_a a_dx_b a_dx_a b_dx_b_dx_b b_b_dx_dx_b
      b_b_dx_dx_a : List ℝ → List ℝ) (X0 : List ℝ) (ts U1s U2s : List ℝ) :
    List (List ℝ) :=
  chain (taylor_1_5_step drift diffusion b_dx_b b_dx_a a_dx_b a_dx_a
    b_dx_b_dx_b b_b_dx_dx_b b_b_dx_dx_a) X0 (taylor_steps ts U1s U2s)

/-! ## `grid_conv.py`: increment refinement and the convergence harness

2-D numpy arrays are embedded as lists of rows.  numpy's elementwise binary
operations succeed on equal shapes, broadcast an axis of extent 1, and raise a
`ValueError` otherwise; that fallible behaviour is the `Option` below. -/

/-- numpy 1-D elementwise binary operation with broadcasting of a length-1
operand; `none` models the `ValueError` on incompatible shapes. -/
def np_binop1 (op : ℝ → ℝ → ℝ) (a b : List ℝ) : Option (List ℝ) :=
  if a.length = b.length then some (List.zipWith op a b)
  else
    match a, b with
    | [x], _ => some (b.map (fun y => op x y))
    | _, [y] => some (a.map (fun x => op x y))
    | _, _ => none

/-- Collect a list of optional values, failing if any entry fails. -/
def seqOption : List (Option α) → Option (List α)
  | [] => some []
  | o :: os => do
    let x ← o
    let xs ← seqOption os
    some (x :: xs)

/-- numpy 2-D elementwise binary operation: equal row counts (or a single
broadcast row), rows combined by `np_binop1`. -/
def np_binop2 (op : ℝ → ℝ → ℝ) (a b : List (List ℝ)) :
    Option (List (List ℝ)) :=
  if a.length = b.length then seqOption (List.zipWith (np_binop1 op) a b)
  else
    match a, b with
    | [r], _ => seqOption (b.map (np_binop1 op r))
    | _, [r] => seqOption (a.map (fun x => np_binop1 op x r))
    | _, _ => none

/-- numpy 2-D elementwise `+`. -/
def np_add2 (a b : List (List ℝ)) : Option (List (List ℝ)) :=
  np_binop2 (· + ·) a b

/-- numpy 2-D elementwise `-`. -/
def np_sub2 (a b : List (List ℝ)) : Option (List (List ℝ)) :=
  np_binop2 (· - ·) a b

/-- Python slice `[::2]`. -/
def everyOther : List α → List α
  | [] => []
  | [x] => [x]
  | x :: _ :: rest => x :: everyOther rest

/-- Python slice `[1::2]`. -/
def everyOtherOdd (l : List α) : List α := everyOther l.tail

/-- `grid_conv.py` `l1_norm`: `np.sum(np.abs(vec))`. -/
def l1_norm (vec : List ℝ) : ℝ := (vec.map (fun x => |x|)).sum

/-- `grid_conv.py` `double_increments`.  `new_times = times[::2]`,
`new_U1s = (U1s[:,::2] + U1s[:,1::2])/sqrt(2)` and, when `U2s` is given,
`new_U2s = (sqrt(3)*(U1s[:,::2] - U1s[:,1::2]) + U2s[:,::2] + U2s[:,1::2])
/(2*sqrt(2))`.  The Python function returns a 2-tuple when `U2s is None` and a
3-tuple otherwise; that variable arity is embedded as an `Option` third
component.  `none` overall models a numpy shape error escaping the call. -/
noncomputable def double_increments (times : List ℝ) (U1s : List (List ℝ))
    (U2s : Option (List (List ℝ)) := none) :
    Option (List ℝ × List (List ℝ) × Option (List (List ℝ))) := do
  let new_times := everyOther times
  let even_U1s := U1s.map everyOther
  let odd_U1s := U1s.map everyOtherOdd
  let sum1 ← np_add2 even_U1s odd_U1s
  let new_U1s := sum1.map (fun r => r.map (· / Real.sqrt 2))
  match U2s with
  | none => some (new_times, new_U1s, none)
  | some u2 =>
    let even_U2s := u2.map everyOther
    let odd_U2s := u2.map everyOtherOdd
    let diff1 ← np_sub2 even_U1s odd_U1s
    let scaled := diff1.map (fun r => r.map (fun x => Real.sqrt 3 * x))
    let sum2 ← np_add2 scaled even_U2s
    let sum3 ← np_add2 sum2 odd_U2s
    let new_U2s := sum3.map (fun r => r.map (· / (2 * Real.sqrt 2)))
    some (new_times, new_U1s, some new_U2s)

/-- `grid_conv.py` `milstein_grid_convergence`, with the external
`homodyne_gauss_integrate(rho_0, c_op, M_sq, N, H, basis, ·, ·)` call (defined
in the out-of-scope `pysme.integrate` module) abstracted as the opaque
`integrate` argument, and `Us` required rather than drawn randomly.  The
function performs no grid validation: it refines the increments twice and
integrates at the three resolutions. -/
noncomputable def milstein_grid_convergence (integrate : List ℝ → List ℝ → α)
    (times : List ℝ) (Us : List (List ℝ)) : Option (List (α × List ℝ)) := do
  match ← double_increments times Us none with
  | (times_2, Us_2, _) =>
    match ← double_increments times_2 Us_2 none with
    | (times_4, Us_4, _) =>
      some [(integrate times Us.headI, times),
            (integrate times_2 Us_2.headI, times_2),
            (integrate times_4 Us_4.headI, times_4)]

/-- A Python keyword-argument dictionary as passed to an integrator in
`grid_conv.py`: the opaque entries produced by the external
`prep_homodyne_gauss_1_5` (the `prep` payload) together with the optional
`ts`/`U1s`/`U2s` keys that `homodyne_strong_calc_rate` inserts. -/
structure KwArgs (α : Type) where
  prep : α
  ts : Option (List ℝ) := none
  U1s : Option (List ℝ) := none
  U2s : Option (List ℝ) := none

/-- Python dictionaries are heap objects; a store of dictionaries with
references as indices models object identity and in-place `dict.update`. -/
abbrev DictStore (α : Type) := List (KwArgs α)

/-- One element of the `meta_kwargs` list built by
`homodyne_strong_grid_convergence`: the work-item dictionary for one
trajectory.  `keyword_args` is a reference into the dictionary store — every
entry holds the same dictionary object. -/
structure MetaKwargs (α : Type) where
  integrator_fn : KwArgs α → List (List ℝ)
  keyword_args : Nat
  times : List ℝ
  U1s : List ℝ
  U2s : List ℝ
  times_2 : List ℝ
  U1s_2 : List ℝ
  U2s_2 : List ℝ
  times_4 : List ℝ
  U1s_4 : List ℝ
  U2s_4 : List ℝ

/-- `grid_conv.py` `homodyne_strong_calc_rate`.  The `keyword_args` dictionary
is received by reference (`kwref` into the store `σ`): `kw2`/`kw4` are
value copies (`dict.copy`), after which `keyword_args.update({...})` mutates
the stored dictionary in place.  Returns the updated store and the rate. -/
noncomputable def homodyne_strong_calc_rate
    (integrator_fn : KwArgs α → List (List ℝ)) (σ : DictStore α) (kwref : Nat)
    (d : KwArgs α)
    (times U1s U2s times_2 U1s_2 U2s_2 times_4 U1s_4 U2s_4 : List ℝ) :
    DictStore α × ℝ :=
  let kw := σ.getD kwref d
  let kw2 := kw
  let kw4 := kw
  let kw' := { kw with ts := some times, U1s := some U1s, U2s := some U2s }
  let σ' := σ.set kwref kw'
  let kw2' := { kw2 with ts := some times_2, U1s := some U1s_2, U2s := some U2s_2 }
  let kw4' := { kw4 with ts := some times_4, U1s := some U1s_4, U2s := some U2s_4 }
  let rhos := integrator_fn kw'
  let rhos_2 := integrator_fn kw2'
  let rhos_4 := integrator_fn kw4'
  (σ', (Real.log (l1_norm (vsub rhos_4.getLast! rhos_2.getLast!)) -
        Real.log (l1_norm (vsub rhos_2.getLast! rhos.getLast!))) / Real.log 2)

/-- Truncating 6-way zip, as Python `zip`. -/
def zip6 (as bs cs ds es fs : List α) : List (α × α × α × α × α × α) :=
  as.zip (bs.zip (cs.zip (ds.zip (es.zip fs))))

/-- `grid_conv.py` `homodyne_strong_grid_convergence`, with the external call
`prep_homodyne_gauss_1_5(rho_0, c_op, M_sq, N, H, basis)` (the out-of-scope
`pysme.integrate` module) abstracted as its result `prepOut`, and `U1s`/`U2s`
required rather than drawn randomly.  The produced dictionary is a single heap
object: the returned store holds it once, and every `meta_kwargs` entry refers
to it by the same reference `0`.  The function returns the `meta_kwargs` work
items themselves — the rate computation in the source is commented out. -/
noncomputable def homodyne_strong_grid_convergence
    (integrator_fn : KwArgs α → List (List ℝ)) (prepOut : KwArgs α)
    (times : List ℝ) (U1s U2s : List (List ℝ)) :
    Option (DictStore α × List (MetaKwargs α)) := do
  let keyword_args := prepOut
  let σ : DictStore α := [keyword_args]
  match ← double_increments times U1s (some U2s) with
  | (_, _, none) => none
  | (times_2, U1s_2, some U2s_2) =>
    match ← double_increments times_2 U1s_2 (some U2s_2) with
    | (_, _, none) => none
    | (times_4, U1s_4, some U2s_4) =>
      let meta_kwargs := (zip6 U1s U2s U1s_2 U2s_2 U1s_4 U2s_4).map
        (fun x => match x with
          | (U1, U2, U1_2, U2_2, U1_4, U2_4) =>
            { integrator_fn := integrator_fn, keyword_args := 0,
              times := times, U1s := U1, U2s := U2,
              times_2 := times_2, U1s_2 := U1_2, U2s_2 := U2_2,
              times_4 := times_4, U1s_4 := U1_4, U2s_4 := U2_4 :
              MetaKwargs α })
      some (σ, meta_kwargs)

/-- Store of numpy state arrays, for the aliasing discipline of the
integrators: indices are array references. -/
abbrev ArrStore := List (List ℝ)

/-- Every integrator in `sde.py` begins with `X = np.array([X0])` or
`Xs = [np.array(X0)]`: `np.array` copies its argument into a freshly
allocated array, so the trajectory starts from a copy of the caller's `X0`,
never from the caller's object itself.  Given the caller's array store and a
reference to `X0`, this wrapper performs that allocation and then runs the
(pure) integration on the copied value; it returns the new store, the
trajectory, and the reference of the fresh array the trajectory's first row
lives in. -/
def run_integrator_mem (integrate : List ℝ → List (List ℝ))
    (σ : ArrStore) (x0 : Nat) : ArrStore × List (List ℝ) × Nat :=
  let v := σ.getD x0 []
  (σ ++ [v], integrate v, σ.length)

/-! ## Basic lemmas about the loop and the list combinators -/

theorem chain_length (f : α → β → α) (x : α) (l : List β) :
    (chain f x l).length = l.length + 1 := by
  induction l generalizing x with
  | nil => rfl
  | cons b bs ih => simp only [chain, List.length_cons, ih]

theorem chain_ne_nil (f : α → β → α) (x : α) (l : List β) :
    chain f x l ≠ [] := by
  cases l <;> simp [chain]

theorem chain_getElem_zero (f : α → β → α) (x : α) (l : List β)
    (h : 0 < (chain f x l).length) : (chain f x l)[0] = x := by
  cases l <;> rfl

theorem chain_headI [Inhabited α] (f : α → β → α) (x : α) (l : List β) :
    (chain f x l).headI = x := by
  cases l <;> rfl

theorem chain_getElem_succ (f : α → β → α) (x : α) (l : List β) (i : ℕ)
    (h1 : i + 1 < (chain f x l).length) (h2 : i < (chain f x l).length)
    (h3 : i < l.length) :
    (chain f x l)[i + 1] = f ((chain f x l)[i]) l[i] := by
  induction l generalizing x i with
  | nil => simp at h3
  | cons b bs ih =>
    simp only [chain] at h1 h2 ⊢
    cases i with
    | zero =>
      simp only [List.getElem_cons_succ, List.getElem_cons_zero]
      exact chain_getElem_zero f (f x b) bs (by rw [chain_length]; omega)
    | succ k =>
      simp only [List.getElem_cons_succ]
      exact ih (f x b) k (by simpa using h1) (by simpa using h2) (by simpa using h3)

theorem chain_getElem!_zero [Inhabited α] (f : α → β → α) (x : α) (l : List β) :
    (chain f x l)[0]! = x := by
  rw [getElem!_pos (chain f x l) 0 (by rw [chain_length]; omega)]
  exact chain_getElem_zero f x l (by rw [chain_length]; omega)

theorem chain_getElem!_succ [Inhabited α] [Inhabited β] (f : α → β → α) (x : α)
    (l : List β) (i : ℕ) (h : i < l.length) :
    (chain f x l)[i + 1]! = f ((chain f x l)[i]!) l[i]! := by
  have hlen := chain_length f x l
  rw [getElem!_pos (chain f x l) (i + 1) (by omega),
      getElem!_pos (chain f x l) i (by omega), getElem!_pos l i h]
  exact chain_getElem_succ f x l i (by omega) (by omega) h

/-- Every entry of a `chain` satisfies an invariant preserved by the step. -/
theorem chain_invariant {P : α → Prop} (f : α → β → α) (x : α) (l : List β)
    (hx : P x) (hf : ∀ a, ∀ b ∈ l, P a → P (f a b)) :
    ∀ y ∈ chain f x l, P y := by
  induction l generalizing x with
  | nil => simpa [chain] using hx
  | cons b bs ih =>
    intro y hy
    simp only [chain, List.mem_cons] at hy
    rcases hy with rfl | hy
    · exact hx
    · exact ih (f x b) (hf x b (List.mem_cons_self b bs) hx)
        (fun a c hc ha => hf a c (List.mem_cons_of_mem b hc) ha) y hy

theorem zip3_length (as : List α) (bs : List β) (cs : List γ) :
    (zip3 as bs cs).length = min as.length (min bs.length cs.length) := by
  simp [zip3]

theorem zip3_getElem (as : List α) (bs : List β) (cs : List γ) (i : ℕ)
    (h : i < (zip3 as bs cs).length) (ha : i < as.length) (hb : i < bs.length)
    (hc : i < cs.length) :
    (zip3 as bs cs)[i] = (as[i], bs[i], cs[i]) := by
  simp [zip3, List.getElem_zip]

theorem zip4_length (as : List α) (bs : List β) (cs : List γ) (ds : List δ) :
    (zip4 as bs cs ds).length
      = min as.length (min bs.length (min cs.length ds.length)) := by
  simp [zip4]

theorem zip4_getElem (as : List α) (bs : List β) (cs : List γ) (ds : List δ)
    (i : ℕ) (h : i < (zip4 as bs cs ds).length) (ha : i < as.length)
    (hb : i < bs.length) (hc : i < cs.length) (hd : i < ds.length) :
    (zip4 as bs cs ds)[i] = (as[i], bs[i], cs[i], ds[i]) := by
  simp [zip4, List.getElem_zip]

/-- The step-`i` time difference used by every integrator:
`dts[i] = ts[i+1] - ts[i]`. -/
theorem dts_getElem (ts : List ℝ) (i : ℕ)
    (h : i < (List.zipWith (fun tf ti => tf - ti) ts.tail ts.dropLast).length)
    (h1 : i + 1 < ts.length) (h2 : i < ts.length) :
    (List.zipWith (fun tf ti => tf - ti) ts.tail ts.dropLast)[i]
      = ts[i + 1] - ts[i] := by
  rw [List.getElem_zipWith, List.getElem_tail, List.getElem_dropLast]

theorem dts_length (ts : List ℝ) :
    (List.zipWith (fun tf ti => tf - ti) ts.tail ts.dropLast).length
      = ts.length - 1 := by
  simp [List.length_zipWith, List.length_tail, List.length_dropLast]

/-! ## Vector-arithmetic lemmas -/

theorem vadd_length (a b : List ℝ) : (vadd a b).length = min a.length b.length := by
  simp [vadd]

theorem vadd_allzero (X Y : List ℝ) (hY : ∀ y ∈ Y, y = 0)
    (hlen : X.length ≤ Y.length) : vadd X Y = X := by
  induction X generalizing Y with
  | nil => simp [vadd]
  | cons x xs ih =>
    cases Y with
    | nil => simp at hlen
    | cons y ys =>
      have hy : y = 0 := hY y (List.mem_cons_self y ys)
      simp only [vadd, List.zipWith_cons_cons, hy, add_zero]
      have := ih ys (fun z hz => hY z (List.mem_cons_of_mem y hz))
        (by simpa using hlen)
      simpa [vadd] using this

theorem vscale_allzero (v : List ℝ) (c : ℝ) (hv : ∀ y ∈ v, y = 0) :
    ∀ y ∈ vscale v c, y = 0 := by
  intro y hy
  simp only [vscale, List.mem_map] at hy
  obtain ⟨z, hz, rfl⟩ := hy
  rw [hv z hz, zero_mul]

theorem vscale_zero_right (v : List ℝ) : ∀ y ∈ vscale v 0, y = 0 := by
  intro y hy
  simp only [vscale, List.mem_map] at hy
  obtain ⟨z, _, rfl⟩ := hy
  exact mul_zero z

theorem vdiv_allzero (v : List ℝ) (c : ℝ) (hv : ∀ y ∈ v, y = 0) :
    ∀ y ∈ vdiv v c, y = 0 := by
  intro y hy
  simp only [vdiv, List.mem_map] at hy
  obtain ⟨z, hz, rfl⟩ := hy
  rw [hv z hz, zero_div]

theorem vscale_length (v : List ℝ) (c : ℝ) : (vscale v c).length = v.length := by
  simp [vscale]

theorem vdiv_length (v : List ℝ) (c : ℝ) : (vdiv v c).length = v.length := by
  simp [vdiv]

/-! ## Refinement: spec-side per-row formulas and reduction lemmas -/

/-- The specification's per-row refinement of the primary noise samples:
`U1s'[n] = (U1s[2n] + U1s[2n+1]) / sqrt(2)`. -/
noncomputable def refineU1 : List ℝ → List ℝ
  | x :: y :: rest => (x + y) / Real.sqrt 2 :: refineU1 rest
  | _ => []

/-- The specification's per-row refinement of the secondary noise samples:
`U2s'[n] = (sqrt(3)*(U1s[2n] - U1s[2n+1]) + U2s[2n] + U2s[2n+1])
/ (2*sqrt(2))`. -/
noncomputable def refineU2 : List ℝ → List ℝ → List ℝ
  | x :: y :: rest, u :: v :: rest2 =>
    (Real.sqrt 3 * (x - y) + u + v) / (2 * Real.sqrt 2) :: refineU2 rest rest2
  | _, _ => []

theorem everyOther_cons (y : α) (l : List α) :
    everyOther (y :: l) = y :: everyOtherOdd l := by
  cases l <;> simp [everyOther, everyOtherOdd]

theorem everyOther_length (l : List α) :
    (everyOther l).length = (l.length + 1) / 2 := by
  induction l using everyOther.induct with
  | case1 => simp [everyOther]
  | case2 x => simp [everyOther]
  | case3 x y rest ih => simp only [everyOther, List.length_cons, ih]; omega

theorem everyOtherOdd_length (l : List α) :
    (everyOtherOdd l).length = l.length / 2 := by
  cases l with
  | nil => simp [everyOtherOdd, everyOther]
  | cons x rest =>
    simp only [everyOtherOdd, List.tail_cons, everyOther_length, List.length_cons]

theorem everyOther_getElem (l : List α) (n : ℕ)
    (h : n < (everyOther l).length) (h2 : 2 * n < l.length) :
    (everyOther l)[n] = l[2 * n] := by
  induction l using everyOther.induct generalizing n with
  | case1 => simp [everyOther] at h
  | case2 x =>
    have : n = 0 := by simpa [everyOther] using h
    subst this; rfl
  | case3 x y rest ih =>
    cases n with
    | zero => rfl
    | succ k =>
      have h' : k < (everyOther rest).length := by
        simpa [everyOther] using h
      have h2' : 2 * k < rest.length := by
        simp only [List.length_cons] at h2; omega
      have : 2 * (k + 1) = 2 * k + 1 + 1 := by omega
      simp only [everyOther, List.getElem_cons_succ, this]
      exact ih k h' h2'

theorem refineU1_length (l : List ℝ) : (refineU1 l).length = l.length / 2 := by
  induction l using refineU1.induct with
  | case1 x y rest ih => simp only [refineU1, List.length_cons, ih]; omega
  | case2 l h => cases l with
    | nil => simp [refineU1]
    | cons x t => cases t with
      | nil => simp [refineU1]
      | cons y r => exact absurd rfl (h x y r)

theorem refineU1_getElem (l : List ℝ) (n : ℕ) (h : n < (refineU1 l).length)
    (ha : 2 * n < l.length) (hb : 2 * n + 1 < l.length) :
    (refineU1 l)[n] = (l[2 * n] + l[2 * n + 1]) / Real.sqrt 2 := by
  induction l using refineU1.induct generalizing n with
  | case1 x y rest ih =>
    cases n with
    | zero => rfl
    | succ k =>
      have h' : k < (refineU1 rest).length := by simpa [refineU1] using h
      have ha' : 2 * k < rest.length := by
        simp only [List.length_cons] at ha; omega
      have hb' : 2 * k + 1 < rest.length := by
        simp only [List.length_cons] at hb; omega
      have e1 : 2 * (k + 1) = 2 * k + 1 + 1 := by omega
      have e2 : 2 * (k + 1) + 1 = 2 * k + 1 + 1 + 1 := by omega
      simp only [refineU1, e1, e2, List.getElem_cons_succ]
      exact ih k h' ha' hb'
  | case2 l hmatch => cases l with
    | nil => simp [refineU1] at h
    | cons x t => cases t with
      | nil => simp [refineU1] at h
      | cons y r => exact absurd rfl (hmatch x y r)

theorem refineU2_getElem (l1 l2 : List ℝ) (n : ℕ)
    (h : n < (refineU2 l1 l2).length)
    (ha : 2 * n + 1 < l1.length) (hb : 2 * n + 1 < l2.length) :
    (refineU2 l1 l2)[n] = (Real.sqrt 3 * (l1[2 * n] - l1[2 * n + 1])
      + l2[2 * n] + l2[2 * n + 1]) / (2 * Real.sqrt 2) := by
  induction l1 using everyOther.induct generalizing l2 n with
  | case1 => simp at ha
  | case2 x => simp only [List.length_cons, List.length_nil] at ha; omega
  | case3 x y rest ih =>
    cases l2 with
    | nil => simp at hb
    | cons u t => cases t with
      | nil => simp only [List.length_cons, List.length_nil] at hb; omega
      | cons v rest2 =>
        cases n with
        | zero => rfl
        | succ k =>
          have h' : k < (refineU2 rest rest2).length := by
            simpa [refineU2] using h
          have ha' : 2 * k + 1 < rest.length := by
            simp only [List.length_cons] at ha; omega
          have hb' : 2 * k + 1 < rest2.length := by
            simp only [List.length_cons] at hb; omega
          have e1 : 2 * (k + 1) = 2 * k + 1 + 1 := by omega
          have e2 : 2 * (k + 1) + 1 = 2 * k + 1 + 1 + 1 := by omega
          simp only [refineU2, e1, e2, List.getElem_cons_succ]
          exact ih rest2 k h' ha' hb'

/-- For an even-length row, the numpy expression
`(r[::2] + r[1::2])/sqrt(2)` is exactly the spec's pairwise formula. -/
theorem refineU1_eq (l : List ℝ) (h : l.length % 2 = 0) :
    (List.zipWith (· + ·) (everyOther l) (everyOtherOdd l)).map
      (· / Real.sqrt 2) = refineU1 l := by
  induction l using refineU1.induct with
  | case1 x y rest ih =>
    have h' : rest.length % 2 = 0 := by
      simp only [List.length_cons] at h; omega
    simp only [everyOther, everyOther_cons, everyOtherOdd, List.tail_cons,
      List.zipWith_cons_cons, List.map_cons, refineU1]
    exact congrArg (List.cons ((x + y) / Real.sqrt 2)) (ih h')
  | case2 l hmatch => cases l with
    | nil => rfl
    | cons x t => cases t with
      | nil => simp at h
      | cons y r => exact absurd rfl (hmatch x y r)

/-- For equal even-length rows, the numpy expression
`(sqrt(3)*(r1[::2] - r1[1::2]) + r2[::2] + r2[1::2])/(2*sqrt(2))` is exactly
the spec's pairwise formula. -/
theorem refineU2_eq (l1 l2 : List ℝ) (hlen : l1.length = l2.length)
    (h : l1.length % 2 = 0) :
    (List.zipWith (· + ·)
      (List.zipWith (· + ·)
        ((List.zipWith (· - ·) (everyOther l1) (everyOtherOdd l1)).map
          (fun x => Real.sqrt 3 * x))
        (everyOther l2))
      (everyOtherOdd l2)).map (· / (2 * Real.sqrt 2)) = refineU2 l1 l2 := by
  induction l1 using everyOther.induct generalizing l2 with
  | case1 =>
    have : l2 = [] := by
      cases l2 with
      | nil => rfl
      | cons u t => simp at hlen
    subst this; rfl
  | case2 x => simp at h
  | case3 x y rest ih =>
    cases l2 with
    | nil => simp at hlen
    | cons u t => cases t with
      | nil => simp only [List.length_cons, List.length_nil] at hlen; omega
      | cons v rest2 =>
        have hlen' : rest.length = rest2.length := by
          simp only [List.length_cons] at hlen; omega
        have h' : rest.length % 2 = 0 := by
          simp only [List.length_cons] at h; omega
        simp only [everyOther, everyOther_cons, everyOtherOdd, List.tail_cons,
          List.zipWith_cons_cons, List.map_cons, refineU2]
        exact congrArg (List.cons ((Real.sqrt 3 * (x - y) + u + v)
          / (2 * Real.sqrt 2))) (ih rest2 hlen' h')

theorem np_binop1_eq (op : ℝ → ℝ → ℝ) (a b : List ℝ) (h : a.length = b.length) :
    np_binop1 op a b = some (List.zipWith op a b) := by
  simp [np_binop1, h]

theorem seqOption_zipWith_binop (op : ℝ → ℝ → ℝ) (a b : List (List ℝ))
    (h : List.Forall₂ (fun r s => r.length = s.length) a b) :
    seqOption (List.zipWith (np_binop1 op) a b)
      = some (List.zipWith (List.zipWith op) a b) := by
  induction h with
  | nil => rfl
  | cons hab htl ih =>
    simp [seqOption, np_binop1_eq _ _ _ hab, ih]

theorem np_binop2_eq (op : ℝ → ℝ → ℝ) (a b : List (List ℝ))
    (h : List.Forall₂ (fun r s => r.length = s.length) a b) :
    np_binop2 op a b = some (List.zipWith (List.zipWith op) a b) := by
  unfold np_binop2
  rw [if_pos h.length_eq]
  exact seqOption_zipWith_binop op a b h

theorem forall₂_map_same {R : β → γ → Prop} (F : α → β) (G : α → γ)
    (l : List α) (h : ∀ x ∈ l, R (F x) (G x)) :
    List.Forall₂ R (l.map F) (l.map G) := by
  induction l with
  | nil => constructor
  | cons x t ih =>
    simp only [List.map_cons]
    exact List.Forall₂.cons (h x (List.mem_cons_self x t))
      (ih fun y hy => h y (List.mem_cons_of_mem x hy))

theorem forall₂_of_mem (R : α → β → Prop) :
    ∀ (a : List α) (b : List β), a.length = b.length →
      (∀ x ∈ a, ∀ y ∈ b, R x y) → List.Forall₂ R a b := by
  intro a
  induction a with
  | nil => intro b hb _; cases b with
    | nil => constructor
    | cons y t => simp at hb
  | cons x t ih => intro b hb hr; cases b with
    | nil => simp at hb
    | cons y s =>
      refine List.Forall₂.cons
        (hr x (List.mem_cons_self x t) y (List.mem_cons_self y s)) ?_
      exact ih s (by simpa using hb)
        (fun u hu v hv => hr u (List.mem_cons_of_mem x hu)
          v (List.mem_cons_of_mem y hv))

theorem mem_zipWith {f : α → β → γ} :
    ∀ {a : List α} {b : List β} {x : γ}, x ∈ List.zipWith f a b →
      ∃ u ∈ a, ∃ v ∈ b, x = f u v := by
  intro a
  induction a with
  | nil => intro b x hx; simp at hx
  | cons u t ih =>
    intro b x hx
    cases b with
    | nil => simp at hx
    | cons v s =>
      simp only [List.zipWith_cons_cons, List.mem_cons] at hx
      rcases hx with rfl | hx
      · exact ⟨u, List.mem_cons_self u t, v, List.mem_cons_self v s, rfl⟩
      · obtain ⟨u2, hu2, v2, hv2, rfl⟩ := ih hx
        exact ⟨u2, List.mem_cons_of_mem u hu2, v2, List.mem_cons_of_mem v hv2,
          rfl⟩

theorem zipWith_self (f : α → α → β) (l : List α) :
    List.zipWith f l l = l.map fun a => f a a := by
  induction l with
  | nil => rfl
  | cons x t ih => simp [ih]

theorem zipWith_zipWith_right_self (f : γ → α → δ) (g : β → α → γ)
    (l1 : List β) (l2 : List α) :
    List.zipWith f (List.zipWith g l1 l2) l2
      = List.zipWith (fun b a => f (g b a) a) l1 l2 := by
  induction l1 generalizing l2 with
  | nil => rfl
  | cons x t ih =>
    cases l2 with
    | nil => rfl
    | cons y s => simp [ih]

theorem zipWith_congr_mem (f g : α → β → γ) :
    ∀ (a : List α) (b : List β), (∀ x ∈ a, ∀ y ∈ b, f x y = g x y) →
      List.zipWith f a b = List.zipWith g a b := by
  intro a
  induction a with
  | nil => intro b _; rfl
  | cons x t ih =>
    intro b h
    cases b with
    | nil => rfl
    | cons y s =>
      simp only [List.zipWith_cons_cons]
      rw [h x (List.mem_cons_self x t) y (List.mem_cons_self y s),
        ih s (fun u hu v hv => h u (List.mem_cons_of_mem x hu)
          v (List.mem_cons_of_mem y hv))]

theorem map_congr_mem (f g : α → β) (l : List α) (h : ∀ x ∈ l, f x = g x) :
    l.map f = l.map g := by
  induction l with
  | nil => rfl
  | cons x t ih =>
    simp only [List.map_cons]
    rw [h x (List.mem_cons_self x t),
      ih fun y hy => h y (List.mem_cons_of_mem x hy)]

/-- With even-length rows and no `U2s`, `double_increments` succeeds and
returns the decimated times and the spec's pairwise-refined `U1s`. -/
theorem double_increments_none_eq (times : List ℝ) (U1s : List (List ℝ))
    (heven : ∀ r ∈ U1s, r.length % 2 = 0) :
    double_increments times U1s none
      = some (everyOther times, U1s.map refineU1, none) := by
  have hf : List.Forall₂ (fun r s => r.length = s.length)
      (U1s.map everyOther) (U1s.map everyOtherOdd) :=
    forall₂_map_same _ _ _ (fun r hr => by
      rw [everyOther_length, everyOtherOdd_length]
      have := heven r hr
      omega)
  have h1 := np_binop2_eq (· + ·) _ _ hf
  unfold double_increments np_add2
  show (do
    let sum1 ← np_binop2 (· + ·) (U1s.map everyOther) (U1s.map everyOtherOdd)
    some (everyOther times, sum1.map (fun (r : List ℝ) => r.map (· / Real.sqrt 2)),
      (none : Option (List (List ℝ))))) = _
  rw [h1]
  show some (everyOther times,
    (List.zipWith (List.zipWith (· + ·)) (U1s.map everyOther)
      (U1s.map everyOtherOdd)).map (fun (r : List ℝ) => r.map (· / Real.sqrt 2)),
    none) = _
  rw [List.zipWith_map, zipWith_self, List.map_map]
  refine congrArg (fun z => some (everyOther times, z, none)) ?_
  refine map_congr_mem _ _ _ (fun r hr => ?_)
  simpa [Function.comp] using refineU1_eq r (heven r hr)

/-- With equal even-length rows and matching row counts, `double_increments`
succeeds on both noise batches and returns the decimated times, the refined
`U1s` and the refined `U2s`, each given by the spec's pairwise formula. -/
theorem double_increments_some_eq (times : List ℝ) (U1s U2s : List (List ℝ))
    (m : ℕ) (hm : m % 2 = 0) (h1 : ∀ r ∈ U1s, r.length = m)
    (h2 : ∀ r ∈ U2s, r.length = m) (hlen : U1s.length = U2s.length) :
    double_increments times U1s (some U2s)
      = some (everyOther times, U1s.map refineU1,
          some (List.zipWith refineU2 U1s U2s)) := by
  have heven : ∀ r ∈ U1s, r.length % 2 = 0 := fun r hr => by
    rw [h1 r hr]; exact hm
  have hfadd : List.Forall₂ (fun r s => r.length = s.length)
      (U1s.map everyOther) (U1s.map everyOtherOdd) :=
    forall₂_map_same _ _ _ (fun r hr => by
      rw [everyOther_length, everyOtherOdd_length]
      have := heven r hr
      omega)
  have hadd := np_binop2_eq (· + ·) _ _ hfadd
  have hsub := np_binop2_eq (· - ·) _ _ hfadd
  -- the scaled difference rows, one per `U1s` row
  set F : List ℝ → List ℝ := fun r =>
    (List.zipWith (· - ·) (everyOther r) (everyOtherOdd r)).map
      (fun x => Real.sqrt 3 * x) with hF
  have hf2 : List.Forall₂ (fun r s => r.length = s.length)
      (U1s.map F) (U2s.map everyOther) := by
    refine forall₂_of_mem _ _ _ (by simp [hlen]) ?_
    intro x hx y hy
    simp only [List.mem_map] at hx hy
    obtain ⟨r, hr, rfl⟩ := hx
    obtain ⟨s, hs, rfl⟩ := hy
    simp only [hF, List.length_map, List.length_zipWith, everyOther_length,
      everyOtherOdd_length, h1 r hr, h2 s hs]
    omega
  have hstep3 := np_binop2_eq (· + ·) _ _ hf2
  -- rows of the intermediate sum all have length `m / 2`
  have hmid : ∀ x ∈ List.zipWith
      (fun r s => List.zipWith (· + ·) (F r) (everyOther s)) U1s U2s,
      x.length = m / 2 := by
    intro x hx
    obtain ⟨r, hr, s, hs, rfl⟩ := mem_zipWith hx
    simp only [hF, List.length_zipWith, List.length_map, everyOther_length,
      everyOtherOdd_length, h1 r hr, h2 s hs]
    omega
  have hf3 : List.Forall₂ (fun r s => r.length = s.length)
      (List.zipWith (fun r s => List.zipWith (· + ·) (F r) (everyOther s))
        U1s U2s) (U2s.map everyOtherOdd) := by
    refine forall₂_of_mem _ _ _ (by simp [List.length_zipWith, hlen]) ?_
    intro x hx y hy
    simp only [List.mem_map] at hy
    obtain ⟨s, hs, rfl⟩ := hy
    rw [hmid x hx, everyOtherOdd_length, h2 s hs]
  have hstep4 := np_binop2_eq (· + ·) _ _ hf3
  unfold double_increments np_add2 np_sub2
  show (do
    let sum1 ← np_binop2 (· + ·) (U1s.map everyOther) (U1s.map everyOtherOdd)
    let diff1 ← np_binop2 (· - ·) (U1s.map everyOther) (U1s.map everyOtherOdd)
    let sum2 ← np_binop2 (· + ·)
      (diff1.map (fun (r : List ℝ) => r.map (fun x => Real.sqrt 3 * x)))
      (U2s.map everyOther)
    let sum3 ← np_binop2 (· + ·) sum2 (U2s.map everyOtherOdd)
    some (everyOther times, sum1.map (fun (r : List ℝ) => r.map (· / Real.sqrt 2)),
      some (sum3.map (fun (r : List ℝ) => r.map (· / (2 * Real.sqrt 2)))))) = _
  rw [hadd]
  show (do
    let diff1 ← np_binop2 (· - ·) (U1s.map everyOther) (U1s.map everyOtherOdd)
    let sum2 ← np_binop2 (· + ·)
      (diff1.map (fun (r : List ℝ) => r.map (fun x => Real.sqrt 3 * x)))
      (U2s.map everyOther)
    let sum3 ← np_binop2 (· + ·) sum2 (U2s.map everyOtherOdd)
    some (everyOther times,
      (List.zipWith (List.zipWith (· + ·)) (U1s.map everyOther)
        (U1s.map everyOtherOdd)).map (fun (r : List ℝ) => r.map (· / Real.sqrt 2)),
      some (sum3.map (fun (r : List ℝ) => r.map (· / (2 * Real.sqrt 2)))))) = _
  rw [hsub]
  show (do
    let sum2 ← np_binop2 (· + ·)
      ((List.zipWith (List.zipWith (· - ·)) (U1s.map everyOther)
        (U1s.map everyOtherOdd)).map
          (fun (r : List ℝ) => r.map (fun x => Real.sqrt 3 * x)))
      (U2s.map everyOther)
    let sum3 ← np_binop2 (· + ·) sum2 (U2s.map everyOtherOdd)
    some (everyOther times,
      (List.zipWith (List.zipWith (· + ·)) (U1s.map everyOther)
        (U1s.map everyOtherOdd)).map (fun (r : List ℝ) => r.map (· / Real.sqrt 2)),
      some (sum3.map (fun (r : List ℝ) => r.map (· / (2 * Real.sqrt 2)))))) = _
  have hscaled : (List.zipWith (List.zipWith (· - ·)) (U1s.map everyOther)
      (U1s.map everyOtherOdd)).map
        (fun r => r.map (fun x => Real.sqrt 3 * x)) = U1s.map F := by
    rw [List.zipWith_map, zipWith_self, List.map_map]
    rfl
  rw [hscaled, hstep3]
  show (do
    let sum3 ← np_binop2 (· + ·)
      (List.zipWith (List.zipWith (· + ·)) (U1s.map F) (U2s.map everyOther))
      (U2s.map everyOtherOdd)
    some (everyOther times,
      (List.zipWith (List.zipWith (· + ·)) (U1s.map everyOther)
        (U1s.map everyOtherOdd)).map (fun (r : List ℝ) => r.map (· / Real.sqrt 2)),
      some (sum3.map (fun (r : List ℝ) => r.map (· / (2 * Real.sqrt 2)))))) = _
  rw [List.zipWith_map (List.zipWith (· + ·)) F everyOther U1s U2s, hstep4]
  show some (everyOther times,
    (List.zipWith (List.zipWith (· + ·)) (U1s.map everyOther)
      (U1s.map everyOtherOdd)).map (fun (r : List ℝ) => r.map (· / Real.sqrt 2)),
    some ((List.zipWith (List.zipWith (· + ·))
      (List.zipWith (fun r s => List.zipWith (· + ·) (F r) (everyOther s))
        U1s U2s)
      (U2s.map everyOtherOdd)).map
        (fun r => r.map (· / (2 * Real.sqrt 2))))) = _
  have hU1part : (List.zipWith (List.zipWith (· + ·)) (U1s.map everyOther)
      (U1s.map everyOtherOdd)).map (fun r => r.map (· / Real.sqrt 2))
      = U1s.map refineU1 := by
    rw [List.zipWith_map, zipWith_self, List.map_map]
    refine map_congr_mem _ _ _ (fun r hr => ?_)
    simpa [Function.comp] using refineU1_eq r (heven r hr)
  have hU2part : (List.zipWith (List.zipWith (· + ·))
      (List.zipWith (fun r s => List.zipWith (· + ·) (F r) (everyOther s))
        U1s U2s)
      (U2s.map everyOtherOdd)).map (fun r => r.map (· / (2 * Real.sqrt 2)))
      = List.zipWith refineU2 U1s U2s := by
    rw [List.zipWith_map_right, zipWith_zipWith_right_self, List.map_zipWith]
    refine zipWith_congr_mem _ _ _ _ (fun r hr s hs => ?_)
    have := refineU2_eq r s (by rw [h1 r hr, h2 s hs]) (heven r hr)
    simpa [hF] using this
  rw [hU1part, hU2part]

/-! ## Index lemmas for the per-step data -/

theorem wiener_steps_length (ts Us : List ℝ) (hU : Us.length = ts.length - 1) :
    (wiener_steps ts Us).length = ts.length - 1 := by
  simp only [wiener_steps, zip3_length, dts_length, List.length_zipWith,
    List.length_map, List.length_dropLast, List.length_tail, hU]
  omega

theorem wiener_steps_getElem (ts Us : List ℝ) (hU : Us.length = ts.length - 1)
    (i : ℕ) (hi : i + 1 < ts.length) :
    (wiener_steps ts Us)[i]!
      = (ts[i]!, ts[i + 1]! - ts[i]!,
          Real.sqrt (ts[i + 1]! - ts[i]!) * Us[i]!) := by
  have hsl : (wiener_steps ts Us).length = ts.length - 1 :=
    wiener_steps_length ts Us hU
  have hi2 : i < ts.length := by omega
  have hiU : i < Us.length := by omega
  have hidl : i < ts.dropLast.length := by
    rw [List.length_dropLast]; omega
  have hidts : i < (List.zipWith (fun tf ti => tf - ti) ts.tail
      ts.dropLast).length := by
    rw [dts_length]; omega
  have hw : i < (List.zipWith (· * ·)
      ((List.zipWith (fun tf ti => tf - ti) ts.tail ts.dropLast).map
        Real.sqrt) Us).length := by
    simp only [List.length_zipWith, List.length_map, List.length_tail,
      List.length_dropLast, hU]; omega
  have hz : i < (zip3 ts.dropLast
      (List.zipWith (fun tf ti => tf - ti) ts.tail ts.dropLast)
      (List.zipWith (· * ·)
        ((List.zipWith (fun tf ti => tf - ti) ts.tail ts.dropLast).map
          Real.sqrt) Us)).length := by
    rw [zip3_length]
    simp only [List.length_zipWith, List.length_map, List.length_dropLast,
      List.length_tail, hU]
    omega
  rw [getElem!_pos (wiener_steps ts Us) i (by omega),
    getElem!_pos ts i hi2, getElem!_pos ts (i + 1) hi,
    getElem!_pos Us i hiU]
  simp only [wiener_steps]
  rw [zip3_getElem _ _ _ i hz hidl hidts hw]
  simp only [List.getElem_dropLast, List.getElem_zipWith, List.getElem_map,
    List.getElem_tail]

theorem meas_steps_length (ts dMs : List ℝ) (hM : dMs.length = ts.length - 1) :
    (meas_steps ts dMs).length = ts.length - 1 := by
  simp only [meas_steps, zip3_length, List.length_zipWith, List.length_tail,
    List.length_dropLast, hM]
  omega

theorem meas_steps_getElem (ts dMs : List ℝ) (hM : dMs.length = ts.length - 1)
    (i : ℕ) (hi : i + 1 < ts.length) :
    (meas_steps ts dMs)[i]! = (ts[i]!, ts[i + 1]! - ts[i]!, dMs[i]!) := by
  have hsl : (meas_steps ts dMs).length = ts.length - 1 :=
    meas_steps_length ts dMs hM
  have hi2 : i < ts.length := by omega
  have hidl : i < ts.dropLast.length := by
    rw [List.length_dropLast]; omega
  have hidts : i < (List.zipWith (fun tf ti => tf - ti) ts.tail
      ts.dropLast).length := by
    rw [dts_length]; omega
  have hz : i < (zip3 ts.dropLast
      (List.zipWith (fun tf ti => tf - ti) ts.tail ts.dropLast) dMs).length := by
    rw [zip3_length]
    simp only [List.length_dropLast, List.length_tail, List.length_zipWith, hM]
    omega
  rw [getElem!_pos (meas_steps ts dMs) i (by omega),
    getElem!_pos ts i hi2, getElem!_pos ts (i + 1) hi,
    getElem!_pos dMs i (by omega)]
  simp only [meas_steps]
  rw [zip3_getElem _ _ _ i hz hidl hidts (by omega)]
  simp only [List.getElem_dropLast, List.getElem_zipWith, List.getElem_tail]

theorem taylor_steps_length (ts U1s U2s : List ℝ)
    (h1 : U1s.length = ts.length - 1) (h2 : U2s.length = ts.length - 1) :
    (taylor_steps ts U1s U2s).length = ts.length - 1 := by
  simp only [taylor_steps, zip4_length, dts_length, List.length_zipWith,
    List.length_map, List.length_dropLast, List.length_tail, h1, h2]
  omega

theorem taylor_steps_getElem (ts U1s U2s : List ℝ)
    (h1 : U1s.length = ts.length - 1) (h2 : U2s.length = ts.length - 1)
    (i : ℕ) (hi : i + 1 < ts.length) :
    (taylor_steps ts U1s U2s)[i]!
      = (ts[i]!, ts[i + 1]! - ts[i]!,
          U1s[i]! * Real.sqrt (ts[i + 1]! - ts[i]!),
          (U1s[i]! + U2s[i]! / Real.sqrt 3) * Real.sqrt (ts[i + 1]! - ts[i]!)
            * (ts[i + 1]! - ts[i]!) / 2) := by
  have hsl : (taylor_steps ts U1s U2s).length = ts.length - 1 :=
    taylor_steps_length ts U1s U2s h1 h2
  have hi2 : i < ts.length := by omega
  have hidl : i < ts.dropLast.length := by
    rw [List.length_dropLast]; omega
  have hidts : i < (List.zipWith (fun tf ti => tf - ti) ts.tail
      ts.dropLast).length := by
    rw [dts_length]; omega
  have hiU1 : i < U1s.length := by omega
  have hiU2 : i < U2s.length := by omega
  have hiW : i < (List.zipWith (· * ·) U1s
      ((List.zipWith (fun tf ti => tf - ti) ts.tail ts.dropLast).map
        Real.sqrt)).length := by
    simp only [List.length_zipWith, List.length_map, List.length_tail,
      List.length_dropLast, h1]; omega
  have hiZ : i < ((List.zipWith (· * ·)
      (List.zipWith (· * ·)
        (List.zipWith (· + ·) U1s (U2s.map (· / Real.sqrt 3)))
        ((List.zipWith (fun tf ti => tf - ti) ts.tail ts.dropLast).map
          Real.sqrt))
      (List.zipWith (fun tf ti => tf - ti) ts.tail ts.dropLast)).map
        (· / 2)).length := by
    simp only [List.length_map, List.length_zipWith, List.length_tail,
      List.length_dropLast, h1, h2]
    omega
  have hz : i < (zip4 ts.dropLast
      (List.zipWith (fun tf ti => tf - ti) ts.tail ts.dropLast)
      (List.zipWith (· * ·) U1s
        ((List.zipWith (fun tf ti => tf - ti) ts.tail ts.dropLast).map
          Real.sqrt))
      ((List.zipWith (· * ·)
        (List.zipWith (· * ·)
          (List.zipWith (· + ·) U1s (U2s.map (· / Real.sqrt 3)))
          ((List.zipWith (fun tf ti => tf - ti) ts.tail ts.dropLast).map
            Real.sqrt))
        (List.zipWith (fun tf ti => tf - ti) ts.tail ts.dropLast)).map
          (· / 2))).length := by
    rw [zip4_length]
    simp only [List.length_zipWith, List.length_map, List.length_dropLast,
      List.length_tail, h1, h2]
    omega
  rw [getElem!_pos (taylor_steps ts U1s U2s) i (by omega),
    getElem!_pos ts i hi2, getElem!_pos ts (i + 1) hi,
    getElem!_pos U1s i hiU1, getElem!_pos U2s i hiU2]
  simp only [taylor_steps]
  rw [zip4_getElem _ _ _ _ i hz hidl hidts hiW hiZ]
  simp only [List.getElem_dropLast, List.getElem_zipWith, List.getElem_map,
    List.getElem_tail]

/-! ## Scalar-grouping lemmas for vector expressions -/

theorem vdiv_vscale (v : List ℝ) (s c : ℝ) :
    vdiv (vscale v s) c = vscale v (s / c) := by
  simp only [vdiv, vscale, List.map_map]
  exact map_congr_mem _ _ _ (fun x _ => by
    simp only [Function.comp_apply]; ring)

theorem vdiv_two (v : List ℝ) : vdiv v 2 = vscale v (1 / 2) := by
  simp only [vdiv, vscale]
  exact map_congr_mem _ _ _ (fun x _ => by ring)

theorem vscale_vscale (v : List ℝ) (a b : ℝ) :
    vscale (vscale v a) b = vscale v (a * b) := by
  simp only [vscale, List.map_map]
  exact map_congr_mem _ _ _ (fun x _ => by
    simp only [Function.comp_apply]; ring)

/-- Doubling a correction callable and halving afterwards is the identity:
`(2*v)*s/2 = v*s` elementwise. -/
theorem vdiv_vscale_double (v : List ℝ) (s : ℝ) :
    vdiv (vscale (v.map (fun z => 2 * z)) s) 2 = vscale v s := by
  simp only [vdiv, vscale, List.map_map]
  exact map_congr_mem _ _ _ (fun x _ => by
    simp only [Function.comp_apply]; ring)

theorem chain_congr (f g : α → β → α) (x : α) (l : List β)
    (h : ∀ a b, f a b = g a b) : chain f x l = chain g x l := by
  induction l generalizing x with
  | nil => rfl
  | cons b bs ih => simp only [chain]; rw [h x b, ih]

/-- The order-1.5 Taylor update exactly as the specification states it:
`state + a·Δt + b·ΔW + ½(b·∂)b·(ΔW²−Δt) + (b·∂)a·ΔZ +
[(a·∂)+½(b·∂)(b·∂)]b·(ΔW·Δt−ΔZ) + ½[(a·∂)+½(b·∂)(b·∂)]a·Δt² +
½(b·∂)(b·∂)b·(⅓ΔW²−Δt)·ΔW`, the bracketed operators realized by the
supplied correction callables. -/
noncomputable def taylor_step_spec
    (drift diffusion b_dx_b b_dx_a a_dx_b a_dx_a b_dx_b_dx_b b_b_dx_dx_b
      b_b_dx_dx_a : List ℝ → List ℝ) (X : List ℝ) (dt dW dZ : ℝ) : List ℝ :=
  vadd (vadd (vadd (vadd (vadd (vadd (vadd X
    (vscale (drift X) dt))
    (vscale (diffusion X) dW))
    (vscale (b_dx_b X) ((dW ^ 2 - dt) / 2)))
    (vscale (b_dx_a X) dZ))
    (vscale (vadd (a_dx_b X) (vscale (b_b_dx_dx_b X) (1 / 2))) (dW * dt - dZ)))
    (vscale (vadd (a_dx_a X) (vscale (b_b_dx_dx_a X) (1 / 2))) (dt ^ 2 / 2)))
    (vscale (b_dx_b_dx_b X) ((dW ^ 2 / 3 - dt) * dW / 2))

/-- The source's step expression equals the specification's, term by term. -/
theorem taylor_step_eq
    (drift diffusion b_dx_b b_dx_a a_dx_b a_dx_a b_dx_b_dx_b b_b_dx_dx_b
      b_b_dx_dx_a : List ℝ → List ℝ) (X : List ℝ) (t dt dW dZ : ℝ) :
    taylor_1_5_step drift diffusion b_dx_b b_dx_a a_dx_b a_dx_a b_dx_b_dx_b
        b_b_dx_dx_b b_b_dx_dx_a X (t, dt, dW, dZ)
      = taylor_step_spec drift diffusion b_dx_b b_dx_a a_dx_b a_dx_a
          b_dx_b_dx_b b_b_dx_dx_b b_b_dx_dx_a X dt dW dZ := by
  simp only [taylor_1_5_step, taylor_step_spec]
  rw [vdiv_vscale (b_dx_b X) (dW ^ 2 - dt) 2,
    vdiv_two (b_b_dx_dx_b X), vdiv_two (b_b_dx_dx_a X),
    vdiv_vscale (vadd (a_dx_a X) (vscale (b_b_dx_dx_a X) (1 / 2))) (dt ^ 2) 2,
    vscale_vscale (b_dx_b_dx_b X) (dW ^ 2 / 3 - dt) dW,
    vdiv_vscale (b_dx_b_dx_b X) ((dW ^ 2 / 3 - dt) * dW) 2]

theorem refineU2_length (l1 l2 : List ℝ) :
    (refineU2 l1 l2).length = min l1.length l2.length / 2 := by
  induction l1 using everyOther.induct generalizing l2 with
  | case1 => simp [refineU2]
  | case2 x => cases l2 with
    | nil => simp [refineU2]
    | cons u t => cases t with
      | nil => simp [refineU2]
      | cons v r => simp [refineU2]
  | case3 x y rest ih =>
    cases l2 with
    | nil => simp [refineU2]
    | cons u t => cases t with
      | nil => simp [refineU2]
      | cons v rest2 =>
        simp only [refineU2, List.length_cons, ih rest2]
        omega

/-! ## Claim theorems -/

/-- C1: for an evenly indexable grid with an even interval count and noise
batches of row length `L-1`, `double_increments` returns every other time
point (of length `(L-1)/2 + 1`), `U1s'[n] = (U1s[2n]+U1s[2n+1])/sqrt 2`,
and, when `U2s` is given,
`U2s'[n] = (sqrt 3*(U1s[2n]-U1s[2n+1])+U2s[2n]+U2s[2n+1])/(2*sqrt 2)`; when
`U2s` is omitted only the refined times and `U1s` are returned.  In
particular `times = [0,1,2,3,4]`, `U1s = [[1,1,1,1]]` gives
`times' = [0,2,4]` and `U1s' = [[sqrt 2, sqrt 2]]`. -/
theorem C1_double_increments (times : List ℝ) (U1s U2s : List (List ℝ))
    (hU1 : ∀ r ∈ U1s, r.length = times.length - 1)
    (hU2 : ∀ r ∈ U2s, r.length = times.length - 1)
    (hrows : U1s.length = U2s.length)
    (heven : (times.length - 1) % 2 = 0) (hL : 1 ≤ times.length) :
    double_increments times U1s none
        = some (everyOther times, U1s.map refineU1, none)
    ∧ double_increments times U1s (some U2s)
        = some (everyOther times, U1s.map refineU1,
            some (List.zipWith refineU2 U1s U2s))
    ∧ (everyOther times).length = (times.length - 1) / 2 + 1
    ∧ (∀ n, 2 * n < times.length → (everyOther times)[n]! = times[2 * n]!)
    ∧ (∀ r ∈ U1s, ∀ n, 2 * n + 1 < r.length →
        (refineU1 r)[n]! = (r[2 * n]! + r[2 * n + 1]!) / Real.sqrt 2)
    ∧ (∀ r1 ∈ U1s, ∀ r2 ∈ U2s, ∀ n,
        2 * n + 1 < r1.length → 2 * n + 1 < r2.length →
        (refineU2 r1 r2)[n]! = (Real.sqrt 3 * (r1[2 * n]! - r1[2 * n + 1]!)
          + r2[2 * n]! + r2[2 * n + 1]!) / (2 * Real.sqrt 2))
    ∧ double_increments [0, 1, 2, 3, 4] [[1, 1, 1, 1]] none
        = some ([0, 2, 4], [[Real.sqrt 2, Real.sqrt 2]], none) := by
  have hroweven : ∀ r ∈ U1s, r.length % 2 = 0 := fun r hr => by
    rw [hU1 r hr]; exact heven
  refine ⟨double_increments_none_eq times U1s hroweven,
    double_increments_some_eq times U1s U2s (times.length - 1) heven hU1 hU2
      hrows, ?_, ?_, ?_, ?_, ?_⟩
  · rw [everyOther_length]; omega
  · intro n hn
    have hb : n < (everyOther times).length := by
      rw [everyOther_length]; omega
    rw [getElem!_pos (everyOther times) n hb, getElem!_pos times (2 * n) hn]
    exact everyOther_getElem times n hb hn
  · intro r hr n hn
    have hb : n < (refineU1 r).length := by
      rw [refineU1_length]; omega
    rw [getElem!_pos (refineU1 r) n hb, getElem!_pos r (2 * n) (by omega),
      getElem!_pos r (2 * n + 1) hn]
    exact refineU1_getElem r n hb (by omega) hn
  · intro r1 hr1 r2 hr2 n hn1 hn2
    have hb : n < (refineU2 r1 r2).length := by
      rw [refineU2_length]; omega
    rw [getElem!_pos (refineU2 r1 r2) n hb,
      getElem!_pos r1 (2 * n) (by omega), getElem!_pos r1 (2 * n + 1) hn1,
      getElem!_pos r2 (2 * n) (by omega), getElem!_pos r2 (2 * n + 1) hn2]
    exact refineU2_getElem r1 r2 n hb hn1 hn2
  · rw [double_increments_none_eq [0, 1, 2, 3, 4] [[1, 1, 1, 1]]
      (fun r hr => by simp only [List.mem_singleton] at hr; subst hr; rfl)]
    simp only [everyOther, refineU1, List.map_cons, List.map_nil]
    norm_num [Real.div_sqrt]

/-- Witness for C1 at `times = [0,1,2,3,4]`, `U1s = U2s = [[1,1,1,1]]`. -/
theorem C1_double_increments_witness :
    double_increments [0, 1, 2, 3, 4] [[1, 1, 1, 1]] (some [[1, 1, 1, 1]])
      = some (everyOther [0, 1, 2, 3, 4], [[1, 1, 1, 1]].map refineU1,
          some (List.zipWith refineU2 [[1, 1, 1, 1]] [[1, 1, 1, 1]])) :=
  (C1_double_increments [0, 1, 2, 3, 4] [[1, 1, 1, 1]] [[1, 1, 1, 1]]
    (fun r hr => by simp only [List.mem_singleton] at hr; subst hr; rfl)
    (fun r hr => by simp only [List.mem_singleton] at hr; subst hr; rfl)
    rfl rfl (by simp)).2.1

/-- C2: each step `i` of `time_ind_taylor_1_5` uses
`ΔW_i = U1_i·sqrt(Δt_i)` and `ΔZ_i = (U1_i + U2_i/sqrt 3)·sqrt(Δt_i)·Δt_i/2`
and sets `state[i+1]` to the order-1.5 Taylor update of `state[i]`, with the
bracketed second-order operators realized by the supplied correction
callables. -/
theorem C2_taylor_1_5_update
    (drift diffusion b_dx_b b_dx_a a_dx_b a_dx_a b_dx_b_dx_b b_b_dx_dx_b
      b_b_dx_dx_a : List ℝ → List ℝ) (X0 : List ℝ) (ts U1s U2s : List ℝ)
    (h1 : U1s.length = ts.length - 1) (h2 : U2s.length = ts.length - 1)
    (i : ℕ) (hi : i + 1 < ts.length) :
    (time_ind_taylor_1_5 drift diffusion b_dx_b b_dx_a a_dx_b a_dx_a
        b_dx_b_dx_b b_b_dx_dx_b b_b_dx_dx_a X0 ts U1s U2s)[i + 1]!
      = taylor_step_spec drift diffusion b_dx_b b_dx_a a_dx_b a_dx_a
          b_dx_b_dx_b b_b_dx_dx_b b_b_dx_dx_a
          ((time_ind_taylor_1_5 drift diffusion b_dx_b b_dx_a a_dx_b a_dx_a
            b_dx_b_dx_b b_b_dx_dx_b b_b_dx_dx_a X0 ts U1s U2s)[i]!)
          (ts[i + 1]! - ts[i]!)
          (U1s[i]! * Real.sqrt (ts[i + 1]! - ts[i]!))
          ((U1s[i]! + U2s[i]! / Real.sqrt 3) * Real.sqrt (ts[i + 1]! - ts[i]!)
            * (ts[i + 1]! - ts[i]!) / 2) := by
  have hsl := taylor_steps_length ts U1s U2s h1 h2
  have hstep : i < (taylor_steps ts U1s U2s).length := by omega
  show (chain _ X0 (taylor_steps ts U1s U2s))[i + 1]! = _
  rw [chain_getElem!_succ _ X0 (taylor_steps ts U1s U2s) i hstep,
    taylor_steps_getElem ts U1s U2s h1 h2 i hi]
  exact taylor_step_eq drift diffusion b_dx_b b_dx_a a_dx_b a_dx_a
    b_dx_b_dx_b b_b_dx_dx_b b_b_dx_dx_a _ _ _ _ _

/-- Witness for C2 at `ts = [0,1]`, `U1s = U2s = [1]`, identity callables,
step `i = 0`. -/
theorem C2_taylor_1_5_update_witness :
    (time_ind_taylor_1_5 (fun X => X) (fun X => X) (fun X => X) (fun X => X)
        (fun X => X) (fun X => X) (fun X => X) (fun X => X) (fun X => X)
        [1] [0, 1] [1] [1])[0 + 1]!
      = taylor_step_spec (fun X => X) (fun X => X) (fun X => X) (fun X => X)
          (fun X => X) (fun X => X) (fun X => X) (fun X => X) (fun X => X)
          ((time_ind_taylor_1_5 (fun X => X) (fun X => X) (fun X => X)
            (fun X => X) (fun X => X) (fun X => X) (fun X => X) (fun X => X)
            (fun X => X) [1] [0, 1] [1] [1])[0]!)
          (([0, 1] : List ℝ)[0 + 1]! - ([0, 1] : List ℝ)[0]!)
          (([1] : List ℝ)[0]!
            * Real.sqrt (([0, 1] : List ℝ)[0 + 1]! - ([0, 1] : List ℝ)[0]!))
          ((([1] : List ℝ)[0]! + ([1] : List ℝ)[0]! / Real.sqrt 3)
            * Real.sqrt (([0, 1] : List ℝ)[0 + 1]! - ([0, 1] : List ℝ)[0]!)
            * (([0, 1] : List ℝ)[0 + 1]! - ([0, 1] : List ℝ)[0]!) / 2) :=
  C2_taylor_1_5_update (fun X => X) (fun X => X) (fun X => X) (fun X => X)
    (fun X => X) (fun X => X) (fun X => X) (fun X => X) (fun X => X)
    [1] [0, 1] [1] [1] rfl rfl 0 (by simp)

/-- C3: `faulty_milstein` omits only the `1/2` factor on the
`(b·∂)b·(ΔW²−Δt)` term — each of its steps adds
`a·Δt + b·ΔW + (b·∂)b·(ΔW²−Δt)` — and its trajectory coincides, state for
state, with `milstein` run with the correction callable doubled. -/
theorem C3_faulty_milstein (drift diffusion b_dx_b : List ℝ → ℝ → List ℝ)
    (X0 : List ℝ) (ts Us : List ℝ) (hU : Us.length = ts.length - 1) :
    faulty_milstein drift diffusion b_dx_b X0 ts Us
      = milstein drift diffusion
          (fun X t => (b_dx_b X t).map (fun z => 2 * z)) X0 ts Us
    ∧ ∀ i, i + 1 < ts.length →
        (faulty_milstein drift diffusion b_dx_b X0 ts Us)[i + 1]!
          = vadd (vadd (vadd
              ((faulty_milstein drift diffusion b_dx_b X0 ts Us)[i]!)
              (vscale (drift ((faulty_milstein drift diffusion b_dx_b X0 ts
                Us)[i]!) ts[i]!) (ts[i + 1]! - ts[i]!)))
              (vscale (diffusion ((faulty_milstein drift diffusion b_dx_b X0
                ts Us)[i]!) ts[i]!) (Real.sqrt (ts[i + 1]! - ts[i]!) * Us[i]!)))
              (vscale (b_dx_b ((faulty_milstein drift diffusion b_dx_b X0 ts
                Us)[i]!) ts[i]!)
                ((Real.sqrt (ts[i + 1]! - ts[i]!) * Us[i]!) ^ 2
                  - (ts[i + 1]! - ts[i]!))) := by
  constructor
  · show chain _ X0 (wiener_steps ts Us) = chain _ X0 (wiener_steps ts Us)
    apply chain_congr
    intro a b
    obtain ⟨t, dt, dW⟩ := b
    show faulty_milstein_step drift diffusion b_dx_b a (t, dt, dW)
      = milstein_step drift diffusion
          (fun X t => (b_dx_b X t).map (fun z => 2 * z)) a (t, dt, dW)
    simp only [faulty_milstein_step, milstein_step]
    exact congrArg _ (vdiv_vscale_double (b_dx_b a t) (dW ^ 2 - dt)).symm
  · intro i hi
    have hsl := wiener_steps_length ts Us hU
    show (chain _ X0 (wiener_steps ts Us))[i + 1]! = _
    rw [chain_getElem!_succ _ X0 (wiener_steps ts Us) i (by omega),
      wiener_steps_getElem ts Us hU i hi]
    rfl

/-- Witness for C3 at concrete callables, `X0 = [0]`, `ts = [0,1]`,
`Us = [0]`. -/
theorem C3_faulty_milstein_witness :
    faulty_milstein (fun X _ => X) (fun X _ => X) (fun X _ => X) [0] [0, 1] [0]
      = milstein (fun X _ => X) (fun X _ => X)
          (fun X t => ((fun X _ => X) X t).map (fun z => 2 * z)) [0] [0, 1]
          [0] :=
  (C3_faulty_milstein (fun X _ => X) (fun X _ => X) (fun X _ => X) [0] [0, 1]
    [0] rfl).1

/-- C4: every integrator returns a trajectory with exactly `ts.length`
entries, whose first entry is `X0` and whose entry `i+1` is computed from
entry `i` by that scheme's step function applied to step `i`'s data — a
deterministic fold in strict time order. -/
theorem C4_trajectory_shape
    (drift diffusion b_dx_b : List ℝ → ℝ → List ℝ)
    (dW_fn : ℝ → ℝ → List ℝ → ℝ → ℝ)
    (tdrift tdiffusion tb_dx_b tb_dx_a ta_dx_b ta_dx_a tb_dx_b_dx_b
      tb_b_dx_dx_b tb_b_dx_dx_a : List ℝ → List ℝ)
    (X0 : List ℝ) (ts Us dMs U1s U2s : List ℝ)
    (hL : 2 ≤ ts.length) (hUs : Us.length = ts.length - 1)
    (hdMs : dMs.length = ts.length - 1) (hU1s : U1s.length = ts.length - 1)
    (hU2s : U2s.length = ts.length - 1) :
    ((euler drift diffusion X0 ts Us).length = ts.length
      ∧ (euler drift diffusion X0 ts Us)[0]! = X0
      ∧ ∀ i, i + 1 < ts.length →
          (euler drift diffusion X0 ts Us)[i + 1]!
            = euler_step drift diffusion
                ((euler drift diffusion X0 ts Us)[i]!)
                ((wiener_steps ts Us)[i]!))
    ∧ ((milstein drift diffusion b_dx_b X0 ts Us).length = ts.length
      ∧ (milstein drift diffusion b_dx_b X0 ts Us)[0]! = X0
      ∧ ∀ i, i + 1 < ts.length →
          (milstein drift diffusion b_dx_b X0 ts Us)[i + 1]!
            = milstein_step drift diffusion b_dx_b
                ((milstein drift diffusion b_dx_b X0 ts Us)[i]!)
                ((wiener_steps ts Us)[i]!))
    ∧ ((faulty_milstein drift diffusion b_dx_b X0 ts Us).length = ts.length
      ∧ (faulty_milstein drift diffusion b_dx_b X0 ts Us)[0]! = X0
      ∧ ∀ i, i + 1 < ts.length →
          (faulty_milstein drift diffusion b_dx_b X0 ts Us)[i + 1]!
            = faulty_milstein_step drift diffusion b_dx_b
                ((faulty_milstein drift diffusion b_dx_b X0 ts Us)[i]!)
                ((wiener_steps ts Us)[i]!))
    ∧ ((meas_euler drift diffusion dW_fn X0 ts dMs).length = ts.length
      ∧ (meas_euler drift diffusion dW_fn X0 ts dMs)[0]! = X0
      ∧ ∀ i, i + 1 < ts.length →
          (meas_euler drift diffusion dW_fn X0 ts dMs)[i + 1]!
            = meas_euler_step drift diffusion dW_fn
                ((meas_euler drift diffusion dW_fn X0 ts dMs)[i]!)
                ((meas_steps ts dMs)[i]!))
    ∧ ((meas_milstein drift diffusion b_dx_b dW_fn X0 ts dMs).length
          = ts.length
      ∧ (meas_milstein drift diffusion b_dx_b dW_fn X0 ts dMs)[0]! = X0
      ∧ ∀ i, i + 1 < ts.length →
          (meas_milstein drift diffusion b_dx_b dW_fn X0 ts dMs)[i + 1]!
            = meas_milstein_step drift diffusion b_dx_b dW_fn
                ((meas_milstein drift diffusion b_dx_b dW_fn X0 ts
                  dMs)[i]!)
                ((meas_steps ts dMs)[i]!))
    ∧ ((time_ind_taylor_1_5 tdrift tdiffusion tb_dx_b tb_dx_a ta_dx_b ta_dx_a
          tb_dx_b_dx_b tb_b_dx_dx_b tb_b_dx_dx_a X0 ts U1s U2s).length
          = ts.length
      ∧ (time_ind_taylor_1_5 tdrift tdiffusion tb_dx_b tb_dx_a ta_dx_b
          ta_dx_a tb_dx_b_dx_b tb_b_dx_dx_b tb_b_dx_dx_a X0 ts U1s
          U2s)[0]! = X0
      ∧ ∀ i, i + 1 < ts.length →
          (time_ind_taylor_1_5 tdrift tdiffusion tb_dx_b tb_dx_a ta_dx_b
            ta_dx_a tb_dx_b_dx_b tb_b_dx_dx_b tb_b_dx_dx_a X0 ts U1s
            U2s)[i + 1]!
            = taylor_1_5_step tdrift tdiffusion tb_dx_b tb_dx_a ta_dx_b
                ta_dx_a tb_dx_b_dx_b tb_b_dx_dx_b tb_b_dx_dx_a
                ((time_ind_taylor_1_5 tdrift tdiffusion tb_dx_b tb_dx_a
                  ta_dx_b ta_dx_a tb_dx_b_dx_b tb_b_dx_dx_b tb_b_dx_dx_a
                  X0 ts U1s U2s)[i]!)
                ((taylor_steps ts U1s U2s)[i]!)) := by
  have hws := wiener_steps_length ts Us hUs
  have hms := meas_steps_length ts dMs hdMs
  have hts := taylor_steps_length ts U1s U2s hU1s hU2s
  refine ⟨⟨?_, ?_, ?_⟩, ⟨?_, ?_, ?_⟩, ⟨?_, ?_, ?_⟩, ⟨?_, ?_, ?_⟩,
    ⟨?_, ?_, ?_⟩, ⟨?_, ?_, ?_⟩⟩
  · show (chain _ X0 (wiener_steps ts Us)).length = _
    rw [chain_length, hws]; omega
  · exact chain_getElem!_zero _ X0 (wiener_steps ts Us)
  · intro i hi
    exact chain_getElem!_succ _ X0 (wiener_steps ts Us) i (by omega)
  · show (chain _ X0 (wiener_steps ts Us)).length = _
    rw [chain_length, hws]; omega
  · exact chain_getElem!_zero _ X0 (wiener_steps ts Us)
  · intro i hi
    exact chain_getElem!_succ _ X0 (wiener_steps ts Us) i (by omega)
  · show (chain _ X0 (wiener_steps ts Us)).length = _
    rw [chain_length, hws]; omega
  · exact chain_getElem!_zero _ X0 (wiener_steps ts Us)
  · intro i hi
    exact chain_getElem!_succ _ X0 (wiener_steps ts Us) i (by omega)
  · show (chain _ X0 (meas_steps ts dMs)).length = _
    rw [chain_length, hms]; omega
  · exact chain_getElem!_zero _ X0 (meas_steps ts dMs)
  · intro i hi
    exact chain_getElem!_succ _ X0 (meas_steps ts dMs) i (by omega)
  · show (chain _ X0 (meas_steps ts dMs)).length = _
    rw [chain_length, hms]; omega
  · exact chain_getElem!_zero _ X0 (meas_steps ts dMs)
  · intro i hi
    exact chain_getElem!_succ _ X0 (meas_steps ts dMs) i (by omega)
  · show (chain _ X0 (taylor_steps ts U1s U2s)).length = _
    rw [chain_length, hts]; omega
  · exact chain_getElem!_zero _ X0 (taylor_steps ts U1s U2s)
  · intro i hi
    exact chain_getElem!_succ _ X0 (taylor_steps ts U1s U2s) i (by omega)

/-- Witness for C4 at `ts = [0,1]` with concrete callables; the Euler
trajectory has 2 rows and starts at `X0 = [1]`. -/
theorem C4_trajectory_shape_witness :
    (euler (fun X _ => X) (fun X _ => X) [1] [0, 1] [0]).length
        = ([0, 1] : List ℝ).length
    ∧ (euler (fun X _ => X) (fun X _ => X) [1] [0, 1] [0])[0]! = [1] := by
  have h := C4_trajectory_shape (fun X _ => X) (fun X _ => X) (fun X _ => X)
    (fun dM _ _ _ => dM) (fun X => X) (fun X => X) (fun X => X) (fun X => X)
    (fun X => X) (fun X => X) (fun X => X) (fun X => X) (fun X => X)
    [1] [0, 1] [0] [0] [0] [0] (by simp) rfl rfl rfl rfl
  exact ⟨h.1.1, h.1.2.1⟩

/-- The convergence-rate estimator exactly as the specification states it:
`[log(L1-norm(X4_end − X2_end)) − log(L1-norm(X2_end − X_end))] / log 2`. -/
noncomputable def calc_rate_spec (Xend X2end X4end : List ℝ) : ℝ :=
  (Real.log (l1_norm (vsub X4end X2end))
    - Real.log (l1_norm (vsub X2end Xend))) / Real.log 2

/-- C5: `homodyne_strong_calc_rate` returns exactly the specification's
log-ratio formula, where the three endpoint states are the last entries of
the trajectories the integrator produces on the keyword arguments extended
with the original, doubled and quadrupled grids respectively. -/
theorem C5_homodyne_strong_calc_rate {α : Type}
    (integrator_fn : KwArgs α → List (List ℝ)) (σ : DictStore α)
    (kwref : ℕ) (d : KwArgs α)
    (times U1s U2s times_2 U1s_2 U2s_2 times_4 U1s_4 U2s_4 : List ℝ) :
    (homodyne_strong_calc_rate integrator_fn σ kwref d times U1s U2s times_2
        U1s_2 U2s_2 times_4 U1s_4 U2s_4).2
      = calc_rate_spec
          ((integrator_fn { σ.getD kwref d with
            ts := some times, U1s := some U1s, U2s := some U2s }).getLast!)
          ((integrator_fn { σ.getD kwref d with
            ts := some times_2, U1s := some U1s_2,
            U2s := some U2s_2 }).getLast!)
          ((integrator_fn { σ.getD kwref d with
            ts := some times_4, U1s := some U1s_4,
            U2s := some U2s_4 }).getLast!) := rfl

/-- C6 (code bug): on a concrete ensemble input the batched driver
`homodyne_strong_grid_convergence` does not return per-trajectory rates; it
returns the list of per-trajectory work-item dictionaries (`meta_kwargs`)
it built — the rate computation in the source is commented out. -/
theorem C6_driver_returns_work_items :
    ∃ m : MetaKwargs Unit,
      homodyne_strong_grid_convergence (fun _ => ([] : List (List ℝ)))
          { prep := () } [0, 1, 2, 3, 4] [[1, 1, 1, 1]] [[1, 1, 1, 1]]
        = some ([{ prep := () }], [m])
      ∧ m.keyword_args = 0 ∧ m.times = [0, 1, 2, 3, 4]
      ∧ m.times_2 = [0, 2, 4] ∧ m.times_4 = [0, 4]
      ∧ m.U1s = [1, 1, 1, 1] ∧ m.U2s = [1, 1, 1, 1] :=
  ⟨_, rfl, rfl, rfl, rfl, rfl, rfl, rfl⟩

/-- C10: `homodyne_strong_calc_rate` mutates the received keyword-argument
dictionary in place, inserting the finest-resolution keys, so the caller's
dictionary is observably changed; and `homodyne_strong_grid_convergence`
allocates a single dictionary and every work item it builds refers to that
same dictionary. -/
theorem C10_shared_mutable_kwargs {α : Type}
    (integrator_fn : KwArgs α → List (List ℝ)) (σ : DictStore α)
    (kwref : ℕ) (d : KwArgs α)
    (times U1s U2s times_2 U1s_2 U2s_2 times_4 U1s_4 U2s_4 : List ℝ)
    (prepOut : KwArgs α) (gtimes : List ℝ) (gU1s gU2s : List (List ℝ))
    (href : kwref < σ.length) (hts : (σ.getD kwref d).ts = none) :
    ((homodyne_strong_calc_rate integrator_fn σ kwref d times U1s U2s times_2
        U1s_2 U2s_2 times_4 U1s_4 U2s_4).1).getD kwref d
      = { σ.getD kwref d with
          ts := some times, U1s := some U1s, U2s := some U2s }
    ∧ ((homodyne_strong_calc_rate integrator_fn σ kwref d times U1s U2s
        times_2 U1s_2 U2s_2 times_4 U1s_4 U2s_4).1).getD kwref d
        ≠ σ.getD kwref d
    ∧ ∀ st ms, homodyne_strong_grid_convergence integrator_fn prepOut gtimes
        gU1s gU2s = some (st, ms) →
        st = [prepOut] ∧ ∀ m ∈ ms, m.keyword_args = 0 := by
  have h1 : ((homodyne_strong_calc_rate integrator_fn σ kwref d times U1s U2s
      times_2 U1s_2 U2s_2 times_4 U1s_4 U2s_4).1).getD kwref d
      = { σ.getD kwref d with
          ts := some times, U1s := some U1s, U2s := some U2s } := by
    show (σ.set kwref _).getD kwref d = _
    simp [List.getD, List.getElem?_set_self, href]
  refine ⟨h1, ?_, ?_⟩
  · rw [h1]
    intro heq
    have hfield := congrArg KwArgs.ts heq
    rw [hts] at hfield
    simp at hfield
  · intro st ms h
    unfold homodyne_strong_grid_convergence at h
    cases hd1 : double_increments gtimes gU1s (some gU2s) with
    | none => rw [hd1] at h; exact Option.noConfusion h
    | some v =>
      obtain ⟨t2, u12, ou22⟩ := v
      rw [hd1] at h
      cases ou22 with
      | none => exact Option.noConfusion h
      | some u22 =>
        replace h : ((do
          let w ← double_increments t2 u12 (some u22)
          match w with
          | (_, _, none) => none
          | (t4b, u14b, some u24b) =>
            some (([prepOut] : DictStore α),
              (zip6 gU1s gU2s u12 u22 u14b u24b).map
                (fun x => match x with
                  | (U1, U2, U1_2, U2_2, U1_4, U2_4) =>
                    ({ integrator_fn := integrator_fn, keyword_args := 0,
                       times := gtimes, U1s := U1, U2s := U2,
                       times_2 := t2, U1s_2 := U1_2, U2s_2 := U2_2,
                       times_4 := t4b, U1s_4 := U1_4, U2s_4 := U2_4 } :
                      MetaKwargs α)))) :
            Option (DictStore α × List (MetaKwargs α))) = some (st, ms) := h
        cases hd2 : double_increments t2 u12 (some u22) with
        | none => rw [hd2] at h; exact Option.noConfusion h
        | some w =>
          obtain ⟨t4, u14, ou24⟩ := w
          rw [hd2] at h
          cases ou24 with
          | none => exact Option.noConfusion h
          | some u24 =>
            have h2 := Option.some.inj h
            refine ⟨(congrArg Prod.fst h2).symm, ?_⟩
            intro m hm
            have hms2 : ms = (zip6 gU1s gU2s u12 u22 u14 u24).map
                (fun x => match x with
                  | (U1, U2, U1_2, U2_2, U1_4, U2_4) =>
                    ({ integrator_fn := integrator_fn, keyword_args := 0,
                       times := gtimes, U1s := U1, U2s := U2,
                       times_2 := t2, U1s_2 := U1_2, U2s_2 := U2_2,
                       times_4 := t4, U1s_4 := U1_4, U2s_4 := U2_4 } :
                      MetaKwargs α)) := (congrArg Prod.snd h2).symm
            rw [hms2] at hm
            simp only [List.mem_map] at hm
            obtain ⟨x, _, rfl⟩ := hm
            obtain ⟨a, b, c, e, f, g⟩ := x
            rfl

/-- Witness for C10 at a singleton store holding an empty-keyed dictionary. -/
theorem C10_shared_mutable_kwargs_witness :
    ((homodyne_strong_calc_rate (fun _ => ([] : List (List ℝ)))
        [{ prep := () }] 0 { prep := () } [0] [0] [0] [0] [0] [0] [0] [0]
        [0]).1).getD 0 { prep := () }
      = { ({ prep := () } : KwArgs Unit) with
          ts := some [0], U1s := some [0], U2s := some [0] } :=
  (C10_shared_mutable_kwargs (fun _ => ([] : List (List ℝ)))
    [{ prep := () }] 0 { prep := () } [0] [0] [0] [0] [0] [0] [0] [0] [0]
    { prep := () } [0, 1, 2, 3, 4] [[1, 1, 1, 1]] [[1, 1, 1, 1]]
    (by simp) rfl).1

/-- C7 counterexample: with an odd interval count `double_increments` does
not raise — it silently returns a value, numpy-broadcasting the length-1 odd
slice — and `milstein_grid_convergence` with an interval count `≡ 2 (mod 4)`
likewise proceeds through both refinements without raising. -/
theorem C7_counterexample :
    double_increments [0, 1, 2, 3] [[1, 2, 3]] none
        = some ([0, 2], [[(1 + 2) / Real.sqrt 2, (3 + 2) / Real.sqrt 2]],
            none)
    ∧ (milstein_grid_convergence (fun a b => (a, b)) [0, 1, 2, 3, 4, 5, 6]
        [[1, 1, 1, 1, 1, 1]]).isSome = true :=
  ⟨rfl, rfl⟩

/-- C7 amended: neither `double_increments` nor the grid-convergence drivers
validate the interval count.  With an odd interval count of three,
`double_increments` silently returns, broadcasting the single odd-indexed
sample against both even-indexed samples; with six intervals (`≡ 2 mod 4`)
`milstein_grid_convergence` proceeds through both refinements and returns a
result. -/
theorem C7_no_fail_fast (t0 t1 t2 t3 u0 u1 u2 : ℝ) :
    double_increments [t0, t1, t2, t3] [[u0, u1, u2]] none
        = some ([t0, t2],
            [[(u0 + u1) / Real.sqrt 2, (u2 + u1) / Real.sqrt 2]], none)
    ∧ ∀ (s0 s1 s2 s3 s4 s5 s6 w0 w1 w2 w3 w4 w5 : ℝ),
        (milstein_grid_convergence (fun a b => (a, b))
          [s0, s1, s2, s3, s4, s5, s6]
          [[w0, w1, w2, w3, w4, w5]]).isSome = true :=
  ⟨rfl, fun _ _ _ _ _ _ _ _ _ _ _ _ _ => rfl⟩

/-- C9: every integrator starts from `np.array(X0)` — a copy of the caller's
initial-condition array into a freshly allocated cell — so the caller's
store is unchanged after the call, the trajectory's first row lives in a
fresh reference distinct from `X0`'s, and its value equals `X0`'s. -/
theorem C9_initial_condition_not_aliased
    (drift diffusion b_dx_b : List ℝ → ℝ → List ℝ)
    (dW_fn : ℝ → ℝ → List ℝ → ℝ → ℝ)
    (tdrift tdiffusion tb_dx_b tb_dx_a ta_dx_b ta_dx_a tb_dx_b_dx_b
      tb_b_dx_dx_b tb_b_dx_dx_a : List ℝ → List ℝ)
    (ts Us dMs U1s U2s : List ℝ) (σ : ArrStore) (x0 : ℕ)
    (hx0 : x0 < σ.length) :
    (∀ (f : List ℝ → List (List ℝ)) (j : ℕ), j < σ.length →
        ((run_integrator_mem f σ x0).1).getD j [] = σ.getD j [])
    ∧ (∀ f : List ℝ → List (List ℝ), (run_integrator_mem f σ x0).2.2 ≠ x0)
    ∧ ((run_integrator_mem (fun v => euler drift diffusion v ts Us) σ
        x0).2.1).headI = σ.getD x0 []
    ∧ ((run_integrator_mem (fun v => milstein drift diffusion b_dx_b v ts Us)
        σ x0).2.1).headI = σ.getD x0 []
    ∧ ((run_integrator_mem
        (fun v => faulty_milstein drift diffusion b_dx_b v ts Us) σ
        x0).2.1).headI = σ.getD x0 []
    ∧ ((run_integrator_mem (fun v => meas_euler drift diffusion dW_fn v ts
        dMs) σ x0).2.1).headI = σ.getD x0 []
    ∧ ((run_integrator_mem
        (fun v => meas_milstein drift diffusion b_dx_b dW_fn v ts dMs) σ
        x0).2.1).headI = σ.getD x0 []
    ∧ ((run_integrator_mem
        (fun v => time_ind_taylor_1_5 tdrift tdiffusion tb_dx_b tb_dx_a
          ta_dx_b ta_dx_a tb_dx_b_dx_b tb_b_dx_dx_b tb_b_dx_dx_a v ts U1s
          U2s) σ x0).2.1).headI = σ.getD x0 [] := by
  refine ⟨?_, ?_, ?_, ?_, ?_, ?_, ?_, ?_⟩
  · intro f j hj
    exact List.getD_append σ [σ.getD x0 []] [] j hj
  · intro f
    exact ne_of_gt hx0
  · exact chain_headI _ _ _
  · exact chain_headI _ _ _
  · exact chain_headI _ _ _
  · exact chain_headI _ _ _
  · exact chain_headI _ _ _
  · exact chain_headI _ _ _

/-- Witness for C9 at a one-cell store. -/
theorem C9_initial_condition_not_aliased_witness :
    ((run_integrator_mem
      (fun v => euler (fun X _ => X) (fun X _ => X) v [0, 1] [0])
      [[1]] 0).2.1).headI = ([[1]] : ArrStore).getD 0 [] :=
  (C9_initial_condition_not_aliased (fun X _ => X) (fun X _ => X)
    (fun X _ => X) (fun dM _ _ _ => dM) (fun X => X) (fun X => X)
    (fun X => X) (fun X => X) (fun X => X) (fun X => X) (fun X => X)
    (fun X => X) (fun X => X) [0, 1] [0] [0] [0] [0] [[1]] 0
    (by simp)).2.2.1

theorem mem_map_zero (X : List ℝ) : ∀ y ∈ X.map (fun _ => (0 : ℝ)), y = 0 := by
  intro y hy
  simp only [List.mem_map] at hy
  obtain ⟨a, _, hfa⟩ := hy
  rw [← hfa]

theorem vadd_allzero_mem (a b : List ℝ) (ha : ∀ y ∈ a, y = 0)
    (hb : ∀ y ∈ b, y = 0) : ∀ y ∈ vadd a b, y = 0 := by
  intro y hy
  obtain ⟨u, hu, v, hv, rfl⟩ := mem_zipWith hy
  rw [ha u hu, hb v hv, add_zero]

/-- C8 counterexample: with zero noise and zero drift but a nonvanishing
correction callable, the Milstein trajectory does not stay at the initial
condition — the correction term contributes `c·(0 − Δt)/2` each step. -/
theorem C8_counterexample :
    ¬ (∀ x ∈ milstein (fun X _ => X.map (fun _ => (0 : ℝ))) (fun X _ => X)
        (fun _ _ => [1]) [0] [0, 1] [0], x = [0]) := by
  intro hall
  have hc : milstein (fun X _ => X.map (fun _ => (0 : ℝ))) (fun X _ => X)
      (fun _ _ => [1]) [0] [0, 1] [0]
      = [[0], [0 + 0 * (1 - 0) + 0 * (Real.sqrt (1 - 0) * 0)
          + 1 * ((Real.sqrt (1 - 0) * 0) ^ 2 - (1 - 0)) / 2]] := rfl
  have hmem : [0 + 0 * (1 - 0) + 0 * (Real.sqrt (1 - 0) * 0)
      + 1 * ((Real.sqrt (1 - 0) * 0) ^ 2 - (1 - 0)) / 2]
      ∈ milstein (fun X _ => X.map (fun _ => (0 : ℝ))) (fun X _ => X)
        (fun _ _ => [1]) [0] [0, 1] [0] := by
    rw [hc]; simp
  have hrow := hall _ hmem
  have hval := congrArg (fun l => l.headI) hrow
  simp only [List.headI] at hval
  norm_num at hval

/-- C8 amended: zero-noise, zero-drift integration leaves the initial
condition unchanged at every time point for Euler unconditionally (given a
dimension-respecting diffusion), and for Milstein and order-1.5 Taylor only
when the correction callables weighted by bare powers of `Δt` — `(b·∂)b`
for Milstein; `(b·∂)b`, `(a·∂)a` and `b b ∂∂ a` for Taylor — also vanish
(as they do, e.g., for constant diffusion); with a generic correction
callable the trajectory drifts, as the counterexample shows. -/
theorem C8_zero_noise_driftless
    (drift diffusion b_dx_b : List ℝ → ℝ → List ℝ)
    (tdrift tdiffusion tb_dx_b tb_dx_a ta_dx_b ta_dx_a tb_dx_b_dx_b
      tb_b_dx_dx_b tb_b_dx_dx_a : List ℝ → List ℝ)
    (X0 : List ℝ) (ts Us U1s U2s : List ℝ)
    (hUs : ∀ u ∈ Us, u = 0) (hU1s : ∀ u ∈ U1s, u = 0)
    (hU2s : ∀ u ∈ U2s, u = 0)
    (hdrift : ∀ X t, drift X t = X.map (fun _ => 0))
    (hdiff : ∀ X t, (diffusion X t).length = X.length)
    (hcorr : ∀ X t, b_dx_b X t = X.map (fun _ => 0))
    (htdrift : ∀ X, tdrift X = X.map (fun _ => 0))
    (htdiff : ∀ X, (tdiffusion X).length = X.length)
    (htbb : ∀ X, tb_dx_b X = X.map (fun _ => 0))
    (htba : ∀ X, (tb_dx_a X).length = X.length)
    (htab : ∀ X, (ta_dx_b X).length = X.length)
    (htaa : ∀ X, ta_dx_a X = X.map (fun _ => 0))
    (htbbb : ∀ X, (tb_dx_b_dx_b X).length = X.length)
    (htbbdb : ∀ X, (tb_b_dx_dx_b X).length = X.length)
    (htbbda : ∀ X, tb_b_dx_dx_a X = X.map (fun _ => 0)) :
    (∀ x ∈ euler drift diffusion X0 ts Us, x = X0)
    ∧ (∀ x ∈ milstein drift diffusion b_dx_b X0 ts Us, x = X0)
    ∧ (∀ x ∈ time_ind_taylor_1_5 tdrift tdiffusion tb_dx_b tb_dx_a ta_dx_b
        ta_dx_a tb_dx_b_dx_b tb_b_dx_dx_b tb_b_dx_dx_a X0 ts U1s U2s,
        x = X0) := by
  have hzero_dW : ∀ b ∈ wiener_steps ts Us, b.2.2 = 0 := by
    intro b hb
    simp only [wiener_steps, zip3] at hb
    have h2 := (List.of_mem_zip ((List.of_mem_zip hb).2)).2
    obtain ⟨s, _, u, hu, hdW⟩ := mem_zipWith h2
    rw [hdW, hUs u hu, mul_zero]
  refine ⟨?_, ?_, ?_⟩
  · refine chain_invariant _ X0 _ rfl ?_
    intro a b hb ha
    rw [ha]
    obtain ⟨t, dt, dW⟩ := b
    have hdW0 : dW = 0 := hzero_dW (t, dt, dW) hb
    subst hdW0
    show euler_step drift diffusion X0 (t, dt, 0) = X0
    simp only [euler_step]
    rw [hdrift,
      vadd_allzero X0 (vscale (X0.map (fun _ => 0)) dt)
        (vscale_allzero _ _ (mem_map_zero X0)) (by simp [vscale_length]),
      vadd_allzero X0 (vscale (diffusion X0 t) 0)
        (vscale_zero_right _) (by rw [vscale_length, hdiff])]
  · refine chain_invariant _ X0 _ rfl ?_
    intro a b hb ha
    rw [ha]
    obtain ⟨t, dt, dW⟩ := b
    have hdW0 : dW = 0 := hzero_dW (t, dt, dW) hb
    subst hdW0
    show milstein_step drift diffusion b_dx_b X0 (t, dt, 0) = X0
    simp only [milstein_step]
    rw [hdrift, hcorr,
      vadd_allzero X0 (vscale (X0.map (fun _ => 0)) dt)
        (vscale_allzero _ _ (mem_map_zero X0)) (by simp [vscale_length]),
      vadd_allzero X0 (vscale (diffusion X0 t) 0)
        (vscale_zero_right _) (by rw [vscale_length, hdiff]),
      vadd_allzero X0
        (vdiv (vscale (X0.map (fun _ => 0)) ((0 : ℝ) ^ 2 - dt)) 2)
        (vdiv_allzero _ _ (vscale_allzero _ _ (mem_map_zero X0)))
        (by simp [vdiv_length, vscale_length])]
  · refine chain_invariant _ X0 _ rfl ?_
    intro a b hb ha
    rw [ha]
    obtain ⟨t, dt, dW, dZ⟩ := b
    simp only [taylor_steps, zip4] at hb
    have hWZ := (List.of_mem_zip ((List.of_mem_zip hb).2)).2
    have hWmem := (List.of_mem_zip hWZ).1
    have hZmem := (List.of_mem_zip hWZ).2
    have hdW0 : dW = 0 := by
      obtain ⟨u, hu, s, _, hdW⟩ := mem_zipWith hWmem
      rw [hdW, hU1s u hu, zero_mul]
    have hdZ0 : dZ = 0 := by
      simp only [List.mem_map] at hZmem
      obtain ⟨z, hz, hdZ⟩ := hZmem
      obtain ⟨z2, hz2, dtv, _, hzz⟩ := mem_zipWith hz
      obtain ⟨z3, hz3, s2, _, hz2z⟩ := mem_zipWith hz2
      obtain ⟨u1b, hu1b, m, hm, hz3z⟩ := mem_zipWith hz3
      simp only [List.mem_map] at hm
      obtain ⟨u2, hu2, hmz⟩ := hm
      rw [← hdZ, hzz, hz2z, hz3z, ← hmz, hU1s u1b hu1b, hU2s u2 hu2]
      simp
    subst hdW0
    subst hdZ0
    show taylor_1_5_step tdrift tdiffusion tb_dx_b tb_dx_a ta_dx_b ta_dx_a
      tb_dx_b_dx_b tb_b_dx_dx_b tb_b_dx_dx_a X0 (t, dt, 0, 0) = X0
    simp only [taylor_1_5_step]
    rw [htdrift, htbb, htaa, htbbda,
      show (0 : ℝ) * dt - 0 = 0 by ring,
      vadd_allzero X0 (vscale (X0.map (fun _ => 0)) dt)
        (vscale_allzero _ _ (mem_map_zero X0)) (by simp [vscale_length]),
      vadd_allzero X0 (vscale (tdiffusion X0) 0)
        (vscale_zero_right _) (by rw [vscale_length, htdiff]),
      vadd_allzero X0
        (vdiv (vscale (X0.map (fun _ => 0)) ((0 : ℝ) ^ 2 - dt)) 2)
        (vdiv_allzero _ _ (vscale_allzero _ _ (mem_map_zero X0)))
        (by simp [vdiv_length, vscale_length]),
      vadd_allzero X0 (vscale (tb_dx_a X0) 0)
        (vscale_zero_right _) (by rw [vscale_length, htba]),
      vadd_allzero X0
        (vscale (vadd (ta_dx_b X0) (vdiv (tb_b_dx_dx_b X0) 2)) 0)
        (vscale_zero_right _)
        (by rw [vscale_length, vadd_length, vdiv_length, htab, htbbdb]
            simp),
      vadd_allzero X0
        (vdiv (vscale (vadd (X0.map (fun _ => 0))
          (vdiv (X0.map (fun _ => 0)) 2)) (dt ^ 2)) 2)
        (vdiv_allzero _ _ (vscale_allzero _ _ (vadd_allzero_mem _ _
          (mem_map_zero X0) (vdiv_allzero _ _ (mem_map_zero X0)))))
        (by rw [vdiv_length, vscale_length, vadd_length, vdiv_length]
            simp),
      vadd_allzero X0
        (vdiv (vscale (vscale (tb_dx_b_dx_b X0) ((0 : ℝ) ^ 2 / 3 - dt)) 0) 2)
        (vdiv_allzero _ _ (vscale_zero_right _))
        (by rw [vdiv_length, vscale_length, vscale_length, htbbb])]

/-- Witness for C8 at `X0 = [1]`, `ts = [0,1]`, zero noise, zero drift and
vanishing correction callables: the second trajectory entry is still `[1]`. -/
theorem C8_zero_noise_driftless_witness :
    (milstein (fun X _ => X.map (fun _ => (0 : ℝ))) (fun X _ => X)
      (fun X _ => X.map (fun _ => 0)) [1] [0, 1] [0])[1]! = [1] := by
  have hlt : 1 < (milstein (fun X _ => X.map (fun _ => (0 : ℝ)))
      (fun X _ => X) (fun X _ => X.map (fun _ => 0)) [1] [0, 1]
      [0]).length := by
    rw [show (milstein (fun X _ => X.map (fun _ => (0 : ℝ))) (fun X _ => X)
      (fun X _ => X.map (fun _ => 0)) [1] [0, 1] [0]).length = 2 from rfl]
    omega
  have hz : ∀ u ∈ ([0] : List ℝ), u = 0 := fun u hu => by simpa using hu
  refine (C8_zero_noise_driftless (fun X _ => X.map (fun _ => 0))
    (fun X _ => X) (fun X _ => X.map (fun _ => 0))
    (fun X => X.map (fun _ => 0)) (fun X => X) (fun X => X.map (fun _ => 0))
    (fun X => X) (fun X => X) (fun X => X.map (fun _ => 0)) (fun X => X)
    (fun X => X) (fun X => X.map (fun _ => 0)) [1] [0, 1] [0] [0] [0]
    hz hz hz ?_ ?_ ?_ ?_ ?_ ?_ ?_ ?_ ?_ ?_ ?_ ?_).2.1 _
    (by rw [getElem!_pos (milstein (fun X _ => X.map (fun _ => (0 : ℝ)))
          (fun X _ => X) (fun X _ => X.map (fun _ => 0)) [1] [0, 1] [0]) 1
          hlt]
        exact List.getElem_mem hlt)
  all_goals intros
  all_goals rfl

end Pysme
